import Mathlib

/-!
Shallow embedding of the hashCdn asset versioning pipeline from
cmd/hashCdn/main.go.

Modelling conventions:
* filenames and file contents are lists of characters (`Name`, `Content`);
* the filesystem is a list of (directory, filename, content) entries, with
  directories identified by opaque strings;
* the MD5 digest of crypto/md5 is an explicit parameter of every operation
  (a function from file contents to a hex string); where a theorem needs
  the md5 shape it takes the hypothesis that the digest always returns a
  32-character lowercase-hex string;
* the Go regular expressions are embedded as structural string functions
  (their patterns are anchored literals with fixed-width hex groups, so each
  match corresponds to a unique decomposition of the filename);
* I/O never fails spontaneously in the model: reads of existing files
  succeed, writes and deletes succeed.  Missing files still fail, which is
  the error class the claims are about.
-/

namespace HashCdn

/-! ## Definitions: the embedded program -/

abbrev Name := List Char

abbrev Content := List Char

/-- Character class of the Go regex fragment `[a-f0-9]`. -/
def isLowerHexChar (c : Char) : Bool :=
  decide (('a' ≤ c ∧ c ≤ 'f') ∨ ('0' ≤ c ∧ c ≤ '9'))

/-- The extension alternation of `removeHashFromFilename`'s regex:
`css|js|jpg|jpeg|png|gif|svg|webp|ico`. -/
def recognizedExts : List Name :=
  ["css".toList, "js".toList, "jpg".toList, "jpeg".toList, "png".toList,
   "gif".toList, "svg".toList, "webp".toList, "ico".toList]

/-- Split a name at its last dot: `lastDotSplit n = some (b, a)` when
`n = b ++ '.' :: a` and `a` is dot-free; `none` when `n` has no dot.
This is the decomposition both `filepath.Ext` and the anchored
`....<ext>$` regexes act on. -/
def lastDotSplit : Name → Option (Name × Name)
  | [] => none
  | c :: rest =>
    match lastDotSplit rest with
    | some (b, a) => some (c :: b, a)
    | none => if c = '.' then some ([], rest) else none

/-- `filepath.Ext`: the suffix starting at the last dot, empty if none. -/
def extGo (n : Name) : Name :=
  match lastDotSplit n with
  | some (_, a) => '.' :: a
  | none => []

/-- `strings.TrimSuffix(filename, ext)` for `ext = filepath.Ext filename`. -/
def baseGo (n : Name) : Name :=
  match lastDotSplit n with
  | some (b, _) => b
  | none => n

/-- The Go regex replacement `` re.ReplaceAllString(basename, "") `` for the
anchored pattern `` `\.[a-f0-9]{8}$` ``: drop a trailing dot followed by
exactly eight lowercase-hex characters, if present. -/
def stripTrailing8Hex (b : Name) : Name :=
  if (b.reverse.take 8).length = 8 ∧ (b.reverse.take 8).all isLowerHexChar = true ∧
      (b.reverse.drop 8).head? = some '.' then
    (b.reverse.drop 9).reverse
  else b

/-- `removeHashFromFilename` (main.go lines 82-92): the anchored regex
`` `^(.+)\.([a-f0-9]{8})\.(css|js|...)$` `` matches exactly when the name
decomposes as `b ++ "." ++ h8 ++ "." ++ e` with `e` a recognized extension
(necessarily the dot-free segment after the last dot), `h8` exactly eight
lowercase-hex characters and `b` nonempty and newline-free (Go's `.` does
not match a newline).  On a match the result is `b ++ "." ++ e`. -/
def removeHashFromFilename (n : Name) : Name :=
  match lastDotSplit n with
  | none => n
  | some (p, e) =>
    if e ∈ recognizedExts then
      match lastDotSplit p with
      | none => n
      | some (b, h8) =>
        if b ≠ [] ∧ (∀ c ∈ b, c ≠ '\n') ∧ h8.length = 8 ∧
            h8.all isLowerHexChar = true then
          b ++ '.' :: e
        else n
    else n

/-- `addHashToFilename` (main.go lines 94-104):
`fmt.Sprintf("%s.%s%s", cleanBasename, hash, ext)`. -/
def addHashToFilename (n hash : Name) : Name :=
  stripTrailing8Hex (baseGo n) ++ '.' :: (hash ++ extGo n)

/-- A string accepted by the hash group `[a-f0-9]{8}` of the codec regexes. -/
def isHex8 (h : Name) : Prop := h.length = 8 ∧ h.all isLowerHexChar = true

/-- The clean-filename precondition under which the strip/insert round trip
holds: a recognized extension, and a basename that is nonempty, newline-free
and does not itself end in a dot followed by eight hex characters. -/
def roundTripSafe (f : Name) : Prop :=
  ∃ b e, lastDotSplit f = some (b, e) ∧ e ∈ recognizedExts ∧ b ≠ [] ∧
    (∀ c ∈ b, c ≠ '\n') ∧ stripTrailing8Hex b = b

/-- A valid lowercase-hex string of a given width (the claim's notion of a
hash value matching the configured hash length). -/
def isLowerHexOfWidth (w : Nat) (h : Name) : Prop :=
  h.length = w ∧ h.all isLowerHexChar = true

/-- A clean filename with a recognized extension, in the words of the claim:
`removeHashFromFilename` leaves it unchanged and its extension (the segment
after the last dot) is one of the recognized ones. -/
def cleanWithRecognizedExt (f : Name) : Prop :=
  removeHashFromFilename f = f ∧
    ∃ b e, lastDotSplit f = some (b, e) ∧ e ∈ recognizedExts

/-- The round-trip law exactly as claim C2 states it, parametric in the
configured hash width: for every clean filename with a recognized extension
and every valid lowercase-hex string of the configured width, stripping
undoes inserting. -/
def claimC2Statement : Prop :=
  ∀ (w : Nat) (f h : Name), cleanWithRecognizedExt f → isLowerHexOfWidth w h →
    removeHashFromFilename (addHashToFilename f h) = f

/-- The possible captures of the optional quote groups `` `['"]?` `` in the
`url()` rewriting regex: absent, a single quote, or a double quote. -/
def quoteOpts : List Name := [[], ['\''], ['"']]

/-- Lines 331-339 of `updateCSSImageReferences`: make the opening and
closing quotes of a matched `url()` occurrence consistent.  When exactly
one side has a quote, the other side receives the same quote; in every
other case both sides are kept as they are. -/
def normalizeQuotePair (openingQuote closingQuote : Name) : Name × Name :=
  if openingQuote ≠ closingQuote then
    if openingQuote ≠ [] ∧ closingQuote = [] then (openingQuote, openingQuote)
    else if openingQuote = [] ∧ closingQuote ≠ [] then
      (closingQuote, closingQuote)
    else (openingQuote, closingQuote)
  else (openingQuote, closingQuote)

/-- The replacement string built at line 341:
`fmt.Sprintf("url(%s%s%s%s)", openingQuote, pathPre, newFilename,
closingQuote)` after quote normalization. -/
def renderUrlMatch (openingQuote pathPre newFilename closingQuote : Name) :
    Name :=
  "url(".toList ++ (normalizeQuotePair openingQuote closingQuote).1 ++
    pathPre ++ newFilename ++
    (normalizeQuotePair openingQuote closingQuote).2 ++ [')']

/-- Claim C8 exactly as stated: whenever the opening and closing quote
characters of a matched occurrence differ, both are normalized to one and
the same (non-empty) quote character in the rewritten output. -/
def claimC8Statement : Prop :=
  ∀ oq cq, oq ∈ quoteOpts → cq ∈ quoteOpts → oq ≠ cq →
    (normalizeQuotePair oq cq).1 = (normalizeQuotePair oq cq).2

structure FsPath where
  dir : String
  name : Name
deriving DecidableEq

structure FsEntry where
  path : FsPath
  content : Content
deriving DecidableEq

abbrev FS := List FsEntry

def lookupFS : FS → FsPath → Option Content
  | [], _ => none
  | e :: t, p => if e.path = p then some e.content else lookupFS t p

/-- `fileExists` (main.go 1056-1059). -/
def fileExists (fs : FS) (p : FsPath) : Bool := (lookupFS fs p).isSome

def setFile : FS → FsPath → Content → FS
  | [], p, c => [⟨p, c⟩]
  | e :: t, p, c => if e.path = p then ⟨p, c⟩ :: t else e :: setFile t p c

def removeFile : FS → FsPath → FS
  | [], _ => []
  | e :: t, p => if e.path = p then removeFile t p else e :: removeFile t p

def wfFS (fs : FS) : Prop := (fs.map FsEntry.path).Nodup

instance wfFS_decidable (fs : FS) : Decidable (wfFS fs) :=
  List.nodupDecidable _

/-- `copyFile` (main.go 1061-1076): the source is opened first, then
os.Create truncates the destination before io.Copy streams from the
already-open source descriptor; hence copying a file onto itself leaves it
empty.  Fails (returns none) exactly when the source does not exist. -/
def copyFile (fs : FS) (src dst : FsPath) : Option FS :=
  match lookupFS fs src with
  | none => none
  | some c => some (setFile fs dst (if src = dst then [] else c))

/-- The configuration fields the core pipeline reads. -/
structure Config where
  hashLength : Int
deriving DecidableEq

/-- The truncation step of `calculateFileHash` (main.go 74-78), applied to
the hex digest of a file's bytes. -/
def truncHash (cfg : Config) (digest : Content → Name) (c : Content) : Name :=
  if 0 < cfg.hashLength ∧ cfg.hashLength < ((digest c).length : Int) then
    (digest c).take cfg.hashLength.toNat
  else digest c

/-- `calculateFileHash` (main.go 59-79): digest the file's content and
truncate to the configured width; fails when the file cannot be read. -/
def calculateFileHash (cfg : Config) (digest : Content → Name) (fs : FS)
    (p : FsPath) : Option Name :=
  (lookupFS fs p).map (truncHash cfg digest)

/-- The digest really is crypto/md5's hex form: 32 lowercase-hex characters
for every input. -/
def md5Shaped (digest : Content → Name) : Prop :=
  ∀ c, (digest c).length = 32 ∧ (digest c).all isLowerHexChar = true

/-- The anchored pattern `^<basename>\.[a-f0-9]{8}<ext>$` built by
`findAndDeleteOldHashFiles` (main.go 111 and 139, with basename and ext
quoted as literals): a name matches exactly when it decomposes as
`basename ++ "." ++ h8 ++ ext` for an 8-character lowercase-hex `h8`, and
the capture group of the second regex then extracts that `h8`. -/
def extractOldHash (basename ext n : Name) : Option Name :=
  if n.take basename.length = basename ∧
      (n.drop basename.length).head? = some '.' ∧
      ((n.drop (basename.length + 1)).take 8).length = 8 ∧
      ((n.drop (basename.length + 1)).take 8).all isLowerHexChar = true ∧
      n.drop (basename.length + 9) = ext then
    some ((n.drop (basename.length + 1)).take 8)
  else none

/-- An entry `findAndDeleteOldHashFiles dir basename ext currentHash` would
delete: same directory, name matching the pattern, embedded hash different
from the current one. -/
def isStaleEntry (dir : String) (basename ext currentHash : Name)
    (e : FsEntry) : Bool :=
  decide (e.path.dir = dir) &&
    match extractOldHash basename ext e.path.name with
    | some h8 => decide (¬ h8 = currentHash)
    | none => false

/-- `findAndDeleteOldHashFiles` (main.go 107-189): delete every matching
stale file (all deletions succeed in the model); returns the surviving
filesystem and the number of deletions. -/
def findAndDeleteOldHashFiles (fs : FS) (dir : String)
    (basename ext currentHash : Name) : FS × Nat :=
  (fs.filter (fun e => ! isStaleEntry dir basename ext currentHash e),
   (fs.filter (fun e => isStaleEntry dir basename ext currentHash e)).length)

structure FileInfo where
  originalPath : FsPath
  hashedPath : FsPath
  hash : Name
  renamed : Bool
deriving DecidableEq

/-- Copies performed and files deleted by one publish call. -/
structure Stats where
  copies : Nat
  deletions : Nat
deriving DecidableEq

/-- The clean-named sibling of a path (main.go 195-201). -/
def cleanPathOf (p : FsPath) : FsPath :=
  ⟨p.dir, removeHashFromFilename p.name⟩

/-- Authoritative-source resolution (main.go 200-205): prefer the
clean-named sibling when it exists. -/
def sourcePathOf (fs : FS) (p : FsPath) : FsPath :=
  if fileExists fs (cleanPathOf p) then cleanPathOf p else p

def cleanBaseOf (p : FsPath) : Name := baseGo (removeHashFromFilename p.name)

def cleanExtOf (p : FsPath) : Name := extGo (removeHashFromFilename p.name)

/-- The fingerprinted target filename of a publish (main.go 217). -/
def renameTargetName (p : FsPath) (hash : Name) : Name :=
  addHashToFilename (removeHashFromFilename p.name) hash

def renameTargetPath (p : FsPath) (hash : Name) : FsPath :=
  ⟨p.dir, renameTargetName p hash⟩

/-- Does an entry match the stale-cleanup pattern of path `p`'s publish
(same directory, name of the form `<base>.<8hex><ext>`)? -/
def matchesHashPattern (p : FsPath) (e : FsEntry) : Bool :=
  decide (e.path.dir = p.dir) &&
    (extractOldHash (cleanBaseOf p) (cleanExtOf p) e.path.name).isSome

/-- The unique name a matching file may have after a completed publish with
hash `H`. -/
def canonicalTargetName (p : FsPath) (H : Name) : Name :=
  cleanBaseOf p ++ '.' :: (H ++ cleanExtOf p)

/-- `renameFileWithHash` (main.go 192-255).  Resolve the authoritative
source, hash it, early-return when the fingerprinted target already exists
with the same hash, otherwise remove a conflicting target, copy the source
to the target and garbage-collect stale fingerprinted siblings.  Returns
the published FileInfo (none on error), the updated filesystem, and the
number of copies/deletions performed. -/
def renameFileWithHash (cfg : Config) (digest : Content → Name) (fs : FS)
    (p : FsPath) : Option FileInfo × FS × Stats :=
  match calculateFileHash cfg digest fs (sourcePathOf fs p) with
  | none => (none, fs, ⟨0, 0⟩)
  | some hash =>
    if fileExists fs (renameTargetPath p hash) = true ∧
        calculateFileHash cfg digest fs (renameTargetPath p hash) =
          some hash then
      (some ⟨sourcePathOf fs p, renameTargetPath p hash, hash, true⟩, fs,
        ⟨0, 0⟩)
    else
      match copyFile
          (if fileExists fs (renameTargetPath p hash) then
            removeFile fs (renameTargetPath p hash)
          else fs)
          (sourcePathOf fs p) (renameTargetPath p hash) with
      | none =>
        (none,
         (if fileExists fs (renameTargetPath p hash) then
            removeFile fs (renameTargetPath p hash)
          else fs),
         ⟨0, if fileExists fs (renameTargetPath p hash) then 1 else 0⟩)
      | some fs2 =>
        (some ⟨sourcePathOf fs p, renameTargetPath p hash, hash, true⟩,
         (findAndDeleteOldHashFiles fs2 p.dir (cleanBaseOf p) (cleanExtOf p)
            hash).1,
         ⟨1,
          (if fileExists fs (renameTargetPath p hash) then 1 else 0) +
            (findAndDeleteOldHashFiles fs2 p.dir (cleanBaseOf p)
              (cleanExtOf p) hash).2⟩)

/-- The filesystem after the copy phase of a publish: remove a conflicting
target, write the source bytes `c` to the fingerprinted target, delete
stale fingerprinted siblings. -/
def copyPhaseFS (fs : FS) (p : FsPath) (hash : Name) (c : Content) : FS :=
  (findAndDeleteOldHashFiles
    (setFile
      (if fileExists fs (renameTargetPath p hash) then
        removeFile fs (renameTargetPath p hash)
      else fs)
      (renameTargetPath p hash) c)
    p.dir (cleanBaseOf p) (cleanExtOf p) hash).1

/-- Deletions performed by the copy phase of a publish. -/
def copyPhaseDels (fs : FS) (p : FsPath) (hash : Name) (c : Content) : Nat :=
  (if fileExists fs (renameTargetPath p hash) then 1 else 0) +
    (findAndDeleteOldHashFiles
      (setFile
        (if fileExists fs (renameTargetPath p hash) then
          removeFile fs (renameTargetPath p hash)
        else fs)
        (renameTargetPath p hash) c)
      p.dir (cleanBaseOf p) (cleanExtOf p) hash).2

/-- Claim C1 exactly as stated: after every successful publish (including
the idempotent early-return path), every file in the asset's directory that
matches `<base>.<8hex><ext>` carries the current hash. -/
def claimC1Statement : Prop :=
  ∀ (cfg : Config) (digest : Content → Name) (fs : FS) (p : FsPath)
    (info : FileInfo) (fs' : FS) (s : Stats),
    renameFileWithHash cfg digest fs p = (some info, fs', s) →
    (fs'.filter (matchesHashPattern p)).all
      (fun e => decide (e.path.name = canonicalTargetName p info.hash)) =
      true

/-- A concrete digest for counterexamples and witnesses: file contents in
those scenarios are themselves 8-character hex strings, digested to
themselves. -/
def cexDigest : Content → Name := fun c => c

/-- A character coerced into the lowercase-hex range: hex characters are
kept, everything else becomes `'0'`. -/
def hexOrZero (c : Char) : Char := if isLowerHexChar c then c else '0'

/-- A concrete digest sharing crypto/md5's output shape — 32 lowercase-hex
characters for every input: hex-coerce the content and pad with zeros. On
the 8-character hex contents used in the scenarios below it truncates back
to the content itself. -/
def cexMd5Digest : Content → Name :=
  fun c => (c.map hexOrZero ++ List.replicate 32 '0').take 32

def cexCfg : Config := ⟨8⟩

/-- Directory `d` as the C1 counterexample sees it: the clean source
`a.css` (hash 11111111), its up-to-date fingerprint `a.11111111.css`, and a
stale fingerprint `a.aaaaaaaa.css`. -/
def cexFS1 : FS :=
  [⟨⟨"d", "a.css".toList⟩, "11111111".toList⟩,
   ⟨⟨"d", "a.11111111.css".toList⟩, "11111111".toList⟩,
   ⟨⟨"d", "a.aaaaaaaa.css".toList⟩, "22222222".toList⟩]

/-- Directory `d` before a real (copying) publish of `b.css`: the clean
source and one stale fingerprint. -/
def cexFS2 : FS :=
  [⟨⟨"d", "b.css".toList⟩, "33333333".toList⟩,
   ⟨⟨"d", "b.aaaaaaaa.css".toList⟩, "junk".toList⟩]

structure PipelineState where
  fs : FS
  versionMap : List (FsPath × Name)
  processedFiles : List FsPath
  copies : Nat
  deletions : Nat
deriving DecidableEq

/-- Go map assignment `vm.versionMap[k] = v`. -/
def upsertVM : List (FsPath × Name) → FsPath → Name → List (FsPath × Name)
  | [], k, v => [(k, v)]
  | kv :: t, k, v => if kv.1 = k then (k, v) :: t else kv :: upsertVM t k v

def lookupVM : List (FsPath × Name) → FsPath → Option Name
  | [], _ => none
  | kv :: t, k => if kv.1 = k then some kv.2 else lookupVM t k

/-- Go map assignment for the per-stylesheet image map
`imageMap[originalPath] = newFilename`. -/
def upsertIM : List (Name × Name) → Name → Name → List (Name × Name)
  | [], k, v => [(k, v)]
  | kv :: t, k, v => if kv.1 = k then (k, v) :: t else kv :: upsertIM t k v

/-- The ledger has no duplicated keys (true of a Go map by construction). -/
def vmKeysNodup (m : List (FsPath × Name)) : Prop :=
  (m.map Prod.fst).Nodup

instance vmKeysNodup_decidable (m : List (FsPath × Name)) :
    Decidable (vmKeysNodup m) := List.nodupDecidable _

/-- Number of ledger entries under a key. -/
def vmCount (m : List (FsPath × Name)) (k : FsPath) : Nat :=
  (m.filter (fun kv => decide (kv.1 = k))).length

/-- `renameFileWithHash` as the method of the version manager: thread the
pipeline state through (the Go method reads and writes only the
filesystem; it never touches the version ledger or the processed set). -/
def renameFileWithHashSt (cfg : Config) (digest : Content → Name)
    (st : PipelineState) (p : FsPath) : Option FileInfo × PipelineState :=
  match renameFileWithHash cfg digest st.fs p with
  | (oi, fs', s) =>
    (oi, { st with
      fs := fs'
      copies := st.copies + s.copies
      deletions := st.deletions + s.deletions })

def startsWithSeq : Name → Name → Bool
  | [], _ => true
  | _ :: _, [] => false
  | a :: as, b :: bs => a == b && startsWithSeq as bs

def endsWithSeq (suffix n : Name) : Bool :=
  startsWithSeq suffix.reverse n.reverse

def containsSeq (needle : Name) : Name → Bool
  | [] => startsWithSeq needle []
  | c :: rest => startsWithSeq needle (c :: rest) || containsSeq needle rest

/-- The query/fragment stripping of `collectImagesFromCSS` (main.go
286-287): `strings.Split(p, "?")[0]` followed by
`strings.Split(_, "#")[0]`. -/
def stripQueryAndFragment (p : Name) : Name :=
  (p.takeWhile (fun c => !(c == '?'))).takeWhile (fun c => !(c == '#'))

/-- Split a slash path at its last separator (used to embed
`filepath.Join`/`filepath.Dir` on the forward-slash paths in scope). -/
def splitLastSlash : Name → Option (Name × Name)
  | [] => none
  | c :: rest =>
    match splitLastSlash rest with
    | some (b, a) => some (c :: b, a)
    | none => if c = '/' then some ([], rest) else none

/-- `filepath.Join(dir, filepath.FromSlash(rel))` followed by
`filepath.Clean`, for the relative references in scope (no `.`/`..`
segments, on which Clean is the identity). -/
def resolveInDir (d : String) (rel : Name) : FsPath :=
  match splitLastSlash rel with
  | none => ⟨d, rel⟩
  | some (sub, base) => ⟨d ++ "/" ++ String.mk sub, base⟩

/-- A `url()` reference resolved by `collectImagesFromCSS`. -/
structure ImageRef where
  originalPath : Name
  absolutePath : FsPath
deriving DecidableEq

/-- `collectImagesFromCSS` (main.go 257-304), parametric in `extract`, the
`url(['"]?([^'")\s]+)['"]?)` scanner returning the first capture group of
each match in document order.  Each extracted path is skipped when
absolute/protocol-relative/data (tested on the raw capture), then
`imagePath` is reassigned to its query/fragment-stripped form (main.go
286-287) before the `ImageReference` literal is built (main.go 297), so
`OriginalPath` — later the image-map key driving the `url()` rewrite — is
the stripped path; the reference is kept when the path resolved against
the stylesheet's directory exists. -/
def collectImagesFromCSS (extract : Content → List Name) (fs : FS)
    (cssPath : FsPath) : Option (List ImageRef) :=
  match lookupFS fs cssPath with
  | none => none
  | some content =>
    some ((extract content).filterMap (fun imagePath =>
      if startsWithSeq "http".toList imagePath = true ∨
          startsWithSeq "data:".toList imagePath = true ∨
          startsWithSeq "//".toList imagePath = true then none
      else
        if fileExists fs
            (resolveInDir cssPath.dir (stripQueryAndFragment imagePath)) then
          some ⟨stripQueryAndFragment imagePath,
            resolveInDir cssPath.dir (stripQueryAndFragment imagePath)⟩
        else none))

/-- One iteration of the image loop of `processComponentCSS` (main.go
550-581): skip already-processed images (recomputing their fingerprinted
name for the image map), publish the rest, record published images in the
ledger, and accumulate the image map. -/
def processCssImage (cfg : Config) (digest : Content → Name)
    (acc : PipelineState × List (Name × Name)) (image : ImageRef) :
    PipelineState × List (Name × Name) :=
  if image.absolutePath ∈ acc.1.processedFiles then
    match calculateFileHash cfg digest acc.1.fs image.absolutePath with
    | none => acc
    | some h =>
      (acc.1, upsertIM acc.2 image.originalPath
        (addHashToFilename (removeHashFromFilename image.absolutePath.name)
          h))
  else
    match renameFileWithHashSt cfg digest
        { acc.1 with
          processedFiles := image.absolutePath :: acc.1.processedFiles }
        image.absolutePath with
    | (none, st2) => (st2, acc.2)
    | (some info, st2) =>
      ({ st2 with
          versionMap := upsertVM st2.versionMap image.absolutePath
            info.hash },
       upsertIM acc.2 image.originalPath info.hashedPath.name)

/-- The rewrite-and-rehash phase of `processComponentCSS` (main.go
599-617): when the image map is nonempty, rewrite the fingerprinted copy's
`url()` references (`rewriteCss` stands for `updateCSSImageReferences`'s
content transformation), recompute the hash, and when it changed rename
the copy to the filename carrying the new hash.  Returns the filesystem,
the final fingerprinted path and the final hash. -/
def cssRewritePhase (cfg : Config) (digest : Content → Name)
    (rewriteCss : List (Name × Name) → Content → Content)
    (imageMap : List (Name × Name)) (fs : FS) (cssDir : String)
    (cleanFilename : Name) (hashedCssPath : FsPath) (originalHash : Name) :
    FS × FsPath × Name :=
  if imageMap = [] then (fs, hashedCssPath, originalHash)
  else
    match lookupFS fs hashedCssPath with
    | none => (fs, hashedCssPath, originalHash)
    | some cc =>
      match calculateFileHash cfg digest
          (setFile fs hashedCssPath (rewriteCss imageMap cc))
          hashedCssPath with
      | none =>
        (setFile fs hashedCssPath (rewriteCss imageMap cc), hashedCssPath,
         originalHash)
      | some newHash =>
        if newHash = originalHash then
          (setFile fs hashedCssPath (rewriteCss imageMap cc), hashedCssPath,
           originalHash)
        else
          if (⟨cssDir, addHashToFilename cleanFilename newHash⟩ : FsPath) =
              hashedCssPath then
            (setFile fs hashedCssPath (rewriteCss imageMap cc),
             hashedCssPath, originalHash)
          else
            match lookupFS (setFile fs hashedCssPath (rewriteCss imageMap cc))
                hashedCssPath with
            | none =>
              (setFile fs hashedCssPath (rewriteCss imageMap cc),
               hashedCssPath, originalHash)
            | some c2 =>
              (setFile
                (removeFile
                  (setFile fs hashedCssPath (rewriteCss imageMap cc))
                  hashedCssPath)
                ⟨cssDir, addHashToFilename cleanFilename newHash⟩ c2,
               ⟨cssDir, addHashToFilename cleanFilename newHash⟩, newHash)

/-- `processComponentCSS` (main.go 526-636): resolve the clean stylesheet,
publish its referenced images, copy the clean stylesheet to a fingerprinted
name keyed by the pre-rewrite hash, rewrite image references in that copy
(renaming it when its hash changed), garbage-collect stale fingerprinted
stylesheets, and record the stylesheet in the ledger. -/
def processComponentCSS (cfg : Config) (digest : Content → Name)
    (extract : Content → List Name)
    (rewriteCss : List (Name × Name) → Content → Content)
    (st : PipelineState) (cssPath : FsPath) :
    Option FileInfo × PipelineState :=
  match collectImagesFromCSS extract st.fs
      (if fileExists st.fs (cleanPathOf cssPath) then cleanPathOf cssPath
       else cssPath) with
  | none => (none, st)
  | some images =>
    match images.foldl (processCssImage cfg digest) (st, []) with
    | (st1, imageMap) =>
      match calculateFileHash cfg digest st1.fs
          (if fileExists st.fs (cleanPathOf cssPath) then cleanPathOf cssPath
           else cssPath) with
      | none => (none, st1)
      | some originalHash =>
        match copyFile st1.fs
            (if fileExists st.fs (cleanPathOf cssPath) then
              cleanPathOf cssPath
            else cssPath)
            ⟨cssPath.dir,
              addHashToFilename (removeHashFromFilename cssPath.name)
                originalHash⟩ with
        | none => (none, st1)
        | some fs2 =>
          match cssRewritePhase cfg digest rewriteCss imageMap fs2
              cssPath.dir (removeHashFromFilename cssPath.name)
              ⟨cssPath.dir,
                addHashToFilename (removeHashFromFilename cssPath.name)
                  originalHash⟩
              originalHash with
          | (fs3, finalPath, finalHash) =>
            match findAndDeleteOldHashFiles fs3 cssPath.dir
                (cleanBaseOf cssPath) (cleanExtOf cssPath) finalHash with
            | (fs4, dels) =>
              (some ⟨(if fileExists st.fs (cleanPathOf cssPath) then
                  cleanPathOf cssPath
                else cssPath), finalPath, finalHash, true⟩,
               { st1 with
                 fs := fs4
                 copies := st1.copies + 1
                 deletions := st1.deletions + dels
                 versionMap := upsertVM st1.versionMap
                   (if fileExists st.fs (cleanPathOf cssPath) then
                     cleanPathOf cssPath
                   else cssPath) finalHash })

/-- Lexicographic order on names by character value; `os.ReadDir` returns
entries sorted this way, and `findFile` takes the first match. -/
def nameLe : Name → Name → Bool
  | [], _ => true
  | _ :: _, [] => false
  | a :: as, b :: bs => if a = b then nameLe as bs else decide (a < b)

/-- The smallest name of a list (the first a sorted directory listing
would present). -/
def minName (l : List Name) : Option Name :=
  l.foldl (fun acc n =>
    match acc with
    | none => some n
    | some m => if nameLe m n then some m else some n) none

/-- The pattern actually compiled at main.go 384:
`` fmt.Sprintf(`^%s\.[a-f0-9]{8}\%s$`, QuoteMeta(name), QuoteMeta(ext)) ``.
The format string prepends a lone backslash to the already-quoted
extension, so for an extension `.e` the regex is
`^<name>\.[a-f0-9]{8}\\.e$`: a literal backslash, then any (non-newline)
character, then the extension's tail.  A genuinely fingerprinted sibling
`<name>.<8hex>.e` therefore never matches and the fallback search of
`findFile` finds nothing in practice.  (For a dotless extension the tail
degenerates to a literal `$` with no end anchor.) -/
def findFileAltMatches (bn ext n : Name) : Bool :=
  match ext with
  | '.' :: e =>
    (n.take bn.length == bn) &&
    ((n.drop bn.length).head? == some '.') &&
    (((n.drop (bn.length + 1)).take 8).length == 8) &&
    ((n.drop (bn.length + 1)).take 8).all isLowerHexChar &&
    ((n.drop (bn.length + 9)).head? == some '\\') &&
    (match (n.drop (bn.length + 10)).head? with
     | some c => decide (¬ c = '\n') && (n.drop (bn.length + 11) == e)
     | none => false)
  | [] =>
    (n.take bn.length == bn) &&
    ((n.drop bn.length).head? == some '.') &&
    (((n.drop (bn.length + 1)).take 8).length == 8) &&
    ((n.drop (bn.length + 1)).take 8).all isLowerHexChar &&
    ((n.drop (bn.length + 9)).head? == some '$')
  | _ :: _ =>
    -- filepath.Ext only returns an empty or dot-led extension, so this
    -- shape never reaches findFile
    false

/-- `findFile` (main.go 363-393): the path itself when it exists, otherwise
the first (in directory order) sibling matching the fallback pattern
(which, per `findFileAltMatches`, no ordinary fingerprinted name
satisfies); none when neither exists. -/
def findFile (fs : FS) (basePath : FsPath) : Option FsPath :=
  if fileExists fs basePath then some basePath
  else
    match minName ((fs.filter (fun e =>
        decide (e.path.dir = basePath.dir) &&
        findFileAltMatches (baseGo basePath.name) (extGo basePath.name)
          e.path.name)).map (fun e => e.path.name)) with
    | none => none
    | some n => some ⟨basePath.dir, n⟩

/-- `strings.HasSuffix(strings.ToLower(path), ".css")` (main.go 517);
checking the basename is equivalent since `".css"` contains no path
separator. -/
def endsWithCss (n : Name) : Bool :=
  endsWithSeq ".css".toList (n.map Char.toLower)

/-- `processComponentResource` (main.go 475-523): resolve the actual file
(possibly an already-fingerprinted sibling), skip missing files, return the
recomputed FileInfo for already-processed assets, and publish the rest —
stylesheets through the CSS pipeline, everything else through
`renameFileWithHash`. -/
def processComponentResource (cfg : Config) (digest : Content → Name)
    (extract : Content → List Name)
    (rewriteCss : List (Name × Name) → Content → Content)
    (st : PipelineState) (htmlDir : String) (relativePath : Name) :
    Option FileInfo × PipelineState :=
  match findFile st.fs (resolveInDir htmlDir relativePath) with
  | none =>
    -- actualPath falls back to the resolved path, which findFile just
    -- found missing, so the existence check fails (main.go 480-487)
    (none, st)
  | some actualPath =>
    if fileExists st.fs actualPath = false then (none, st)
    else if actualPath ∈ st.processedFiles then
      match calculateFileHash cfg digest st.fs actualPath with
      | none => (none, st)
      | some h =>
        (some ⟨actualPath,
          ⟨actualPath.dir,
            addHashToFilename (removeHashFromFilename actualPath.name) h⟩,
          h, true⟩, st)
    else
      if endsWithCss actualPath.name then
        processComponentCSS cfg digest extract rewriteCss
          { st with processedFiles := actualPath :: st.processedFiles }
          actualPath
      else
        renameFileWithHashSt cfg digest
          { st with processedFiles := actualPath :: st.processedFiles }
          actualPath

/-- `strings.TrimSuffix(filepath.Base(htmlPath), ".html")` (main.go 833). -/
def trimSuffixHtml (n : Name) : Name :=
  if endsWithSeq ".html".toList n then n.take (n.length - 5) else n

/-- The main-JS loop of `processHTMLFile` (main.go 846-877): try the
conventional locations in order, publish the first that resolves, keep
trying on a publish error, stop at the first success. -/
def processMainJs (cfg : Config) (digest : Content → Name) :
    PipelineState → List FsPath → PipelineState × Option FileInfo
  | st, [] => (st, none)
  | st, jp :: rest =>
    match findFile st.fs jp with
    | none => processMainJs cfg digest st rest
    | some actual =>
      match renameFileWithHashSt cfg digest st actual with
      | (none, st') => processMainJs cfg digest st' rest
      | (some info, st') => (st', some info)

/-- The main-CSS loop of `processHTMLFile` (main.go 886-916), routed
through the CSS pipeline. -/
def processMainCss (cfg : Config) (digest : Content → Name)
    (extract : Content → List Name)
    (rewriteCss : List (Name × Name) → Content → Content) :
    PipelineState → List FsPath → PipelineState × Option FileInfo
  | st, [] => (st, none)
  | st, cp :: rest =>
    match findFile st.fs cp with
    | none => processMainCss cfg digest extract rewriteCss st rest
    | some actual =>
      match processComponentCSS cfg digest extract rewriteCss st actual with
      | (none, st') => processMainCss cfg digest extract rewriteCss st' rest
      | (some info, st') => (st', some info)

/-- `collectResourcesFromHTML` (main.go 396-472), parametric in
`extractHtml`, the `<link href>`/`<script src>` scanner returning the raw
matched attribute values; the model keeps the filtering: skip absolute and
protocol-relative URLs, keep only paths under the `components` marker that
resolve to an existing (possibly fingerprinted) file. -/
def collectResourcesFromHTML (extractHtml : Content → List Name × List Name)
    (fs : FS) (htmlPath : FsPath) : Option (List Name × List Name) :=
  match lookupFS fs htmlPath with
  | none => none
  | some content =>
    some
      ((extractHtml content).1.filter (fun p =>
        !(startsWithSeq "http".toList p) && !(startsWithSeq "//".toList p) &&
        containsSeq "components".toList p &&
        (fileExists fs (resolveInDir htmlPath.dir p) ||
          (findFile fs (resolveInDir htmlPath.dir p)).isSome)),
       (extractHtml content).2.filter (fun p =>
        !(startsWithSeq "http".toList p) && !(startsWithSeq "//".toList p) &&
        containsSeq "components".toList p &&
        (fileExists fs (resolveInDir htmlPath.dir p) ||
          (findFile fs (resolveInDir htmlPath.dir p)).isSome)))

/-- `updateHTMLReferences` (main.go 639-820) at the granularity the
orchestrator sees it: read the document, rewrite its attribute values
(`rewriteHtml` stands for the regex rewriting, whose per-attribute logic is
modelled separately by `rewriteAttrValue`), write the document back. -/
def updateHTMLReferences (rewriteHtml : Content → Content)
    (st : PipelineState) (htmlPath : FsPath) : PipelineState × Bool :=
  match lookupFS st.fs htmlPath with
  | none => (st, false)
  | some content =>
    ({ st with fs := setFile st.fs htmlPath (rewriteHtml content) }, true)

/-- `processHTMLFile` (main.go 823-985): fail on a missing document, else
publish the conventional main JS and CSS, then the component resources
discovered in the document (per-resource errors only logged), then rewrite
the document.  Returns true on success. -/
def processHTMLFile (cfg : Config) (digest : Content → Name)
    (extract : Content → List Name)
    (rewriteCss : List (Name × Name) → Content → Content)
    (extractHtml : Content → List Name × List Name)
    (rewriteHtml : Content → Content)
    (st : PipelineState) (htmlPath : FsPath) : PipelineState × Bool :=
  if fileExists st.fs htmlPath = false then (st, false)
  else
    match processMainJs cfg digest st
        [⟨htmlPath.dir, trimSuffixHtml htmlPath.name ++ ".js".toList⟩,
         ⟨htmlPath.dir ++ "/js", trimSuffixHtml htmlPath.name ++ ".js".toList⟩,
         ⟨htmlPath.dir ++ "/scripts/js",
           trimSuffixHtml htmlPath.name ++ ".js".toList⟩] with
    | (st1, _) =>
      match processMainCss cfg digest extract rewriteCss st1
          [⟨htmlPath.dir, trimSuffixHtml htmlPath.name ++ ".css".toList⟩,
           ⟨htmlPath.dir ++ "/css",
             trimSuffixHtml htmlPath.name ++ ".css".toList⟩] with
      | (st2, _) =>
        match collectResourcesFromHTML extractHtml st2.fs htmlPath with
        | none => (st2, false)
        | some res =>
          updateHTMLReferences rewriteHtml
            (res.1.foldl (fun s rel =>
              (processComponentResource cfg digest extract rewriteCss s
                htmlPath.dir rel).2)
              (res.2.foldl (fun s rel =>
                (processComponentResource cfg digest extract rewriteCss s
                  htmlPath.dir rel).2) st2))
            htmlPath

/-- `processMultipleHTMLFiles` (main.go 988-1002): process each document,
logging (and otherwise ignoring) per-document failures. -/
def processMultipleHTMLFiles (cfg : Config) (digest : Content → Name)
    (extract : Content → List Name)
    (rewriteCss : List (Name × Name) → Content → Content)
    (extractHtml : Content → List Name × List Name)
    (rewriteHtml : Content → Content)
    (st : PipelineState) (paths : List FsPath) : PipelineState :=
  paths.foldl (fun s p =>
    (processHTMLFile cfg digest extract rewriteCss extractHtml rewriteHtml
      s p).1) st

/-- The mode dispatch of `main` (main.go 1130-1158) and the resulting
process exit code: only the explicit-single-file mode can exit non-zero
(`os.Exit(1)` on a `processHTMLFile` error); the scan-all and
configured-list modes log per-document errors and return normally, and so
does the no-input usage case. -/
def mainExitCode (cfg : Config) (digest : Content → Name)
    (extract : Content → List Name)
    (rewriteCss : List (Name × Name) → Content → Content)
    (extractHtml : Content → List Name × List Name)
    (rewriteHtml : Content → Content)
    (st : PipelineState) (singleFile : Option FsPath) (scanAll : Bool)
    (configuredFiles : List FsPath) : Nat × PipelineState :=
  match singleFile with
  | some p =>
    match processHTMLFile cfg digest extract rewriteCss extractHtml
        rewriteHtml st p with
    | (st', true) => (0, st')
    | (st', false) => (1, st')
  | none =>
    if scanAll then
      (0, processMultipleHTMLFiles cfg digest extract rewriteCss extractHtml
        rewriteHtml st
        ((st.fs.filter (fun e => endsWithSeq ".html".toList e.path.name)).map
          FsEntry.path))
    else if configuredFiles ≠ [] then
      (0, processMultipleHTMLFiles cfg digest extract rewriteCss extractHtml
        rewriteHtml st configuredFiles)
    else (0, st)

/-- Backslash normalization of the matched attribute value (main.go 684). -/
def normalizeSlashes (n : Name) : Name :=
  n.map (fun c => if c = '\\' then '/' else c)

/-- `filepath.Dir` on the forward-slash relative attribute paths in scope
(main.go 685). -/
def goDirSlash (p : Name) : Name :=
  match splitLastSlash p with
  | none => ['.']
  | some (d, _) => d

/-- Lines 684-692: keep the directory part of the matched attribute value
and replace only the filename. -/
def mkNewPath (oldPath newFilename : Name) : Name :=
  if goDirSlash (normalizeSlashes oldPath) = ['.'] ∨
      goDirSlash (normalizeSlashes oldPath) = [] then newFilename
  else goDirSlash (normalizeSlashes oldPath) ++ '/' :: newFilename

/-- Lines 694-702: prefix the CDN origin onto non-absolute rewritten paths,
stripping one leading `./` first; values already starting with `http` are
left alone. -/
def applyCdnDomain (cdn newPath : Name) : Name :=
  if cdn ≠ [] ∧ startsWithSeq "http".toList newPath = false then
    cdn ++ '/' ::
      (if startsWithSeq "./".toList newPath then newPath.drop 2 else newPath)
  else newPath

/-- The complete rewritten attribute value for one matched reference. -/
def rewriteAttrValue (cdn oldPath newFilename : Name) : Name :=
  applyCdnDomain cdn (mkNewPath oldPath newFilename)

/-- The fingerprint-shape exclusion property of a path `P` that publishing
never touches. -/
def untouchableName (P : FsPath) : Prop :=
  ∀ (A h E : Name), h.length = 8 → h.all isLowerHexChar = true →
    (E = [] ∨ ∃ ie, E = '.' :: ie ∧ '.' ∉ ie) →
    P.name ≠ A ++ '.' :: (h ++ E)

/-- Claim C3 as it applies to plain (non-stylesheet) publishes, the form
the main-JS and component-JS paths use: a successful publish records the
asset in the ledger under its clean path. -/
def claimC3Statement : Prop :=
  ∀ (cfg : Config) (digest : Content → Name) (st : PipelineState)
    (p : FsPath) (info : FileInfo) (st' : PipelineState),
    renameFileWithHashSt cfg digest st p = (some info, st') →
    lookupVM st'.versionMap (cleanPathOf p) = some info.hash

/-- The tree the C3 counterexample runs on: a page and its main script. -/
def cexFS3 : FS :=
  [⟨⟨"r", "index.html".toList⟩, "page".toList⟩,
   ⟨⟨"r", "index.js".toList⟩, "44444444".toList⟩]

def cexSt0 : PipelineState := ⟨cexFS3, [], [], 0, 0⟩

/-- The stylesheet the C3 witness publishes. -/
def cexStCss : PipelineState :=
  ⟨[⟨⟨"d", "s.css".toList⟩, "55555555".toList⟩], [], [], 0, 0⟩

/-- The tree the C10 run uses: a stylesheet and the image it references
as `url(bg.png?v=1#frag)`. -/
def cexFS4 : FS :=
  [⟨⟨"d", "s.css".toList⟩, "55556666".toList⟩,
   ⟨⟨"d", "bg.png".toList⟩, "aaaa1111".toList⟩]

def cexStC10 : PipelineState := ⟨cexFS4, [], [], 0, 0⟩

/-- Claim C9 as stated, at the batch modes it quantifies over: a missing
requested HTML file would make the run exit non-zero in the
configured-file-list mode too. -/
def claimC9Statement : Prop :=
  ∀ (cfg : Config) (digest : Content → Name)
    (extract : Content → List Name)
    (rewriteCss : List (Name × Name) → Content → Content)
    (extractHtml : Content → List Name × List Name)
    (rewriteHtml : Content → Content)
    (st : PipelineState) (files : List FsPath) (p : FsPath),
    p ∈ files → fileExists st.fs p = false →
    (mainExitCode cfg digest extract rewriteCss extractHtml rewriteHtml st
      none false files).1 ≠ 0

/-! ## Theorems -/

theorem lastDotSplit_none_iff (n : Name) : lastDotSplit n = none ↔ '.' ∉ n := by
  induction n with
  | nil => simp [lastDotSplit]
  | cons c rest ih =>
    cases h : lastDotSplit rest with
    | none =>
      have hrest : '.' ∉ rest := ih.mp h
      by_cases hc : c = '.'
      · subst hc; simp [lastDotSplit, h]
      · simp [lastDotSplit, h, hc, hrest]
        exact fun he => hc he.symm
    | some p =>
      have hrest : '.' ∈ rest := by
        by_contra hn
        have := ih.mpr hn
        rw [this] at h
        exact Option.noConfusion h
      simp [lastDotSplit, h, List.mem_cons, hrest]

theorem lastDotSplit_sound {n b a : Name} (h : lastDotSplit n = some (b, a)) :
    n = b ++ '.' :: a ∧ '.' ∉ a := by
  induction n generalizing b a with
  | nil => simp [lastDotSplit] at h
  | cons c rest ih =>
    cases hr : lastDotSplit rest with
    | none =>
      by_cases hc : c = '.'
      · subst hc
        simp [lastDotSplit, hr] at h
        obtain ⟨hb, ha⟩ := h
        subst hb; subst ha
        exact ⟨rfl, (lastDotSplit_none_iff rest).mp hr⟩
      · simp [lastDotSplit, hr, hc] at h
    | some p =>
      obtain ⟨b', a'⟩ := p
      simp [lastDotSplit, hr] at h
      obtain ⟨hb, ha⟩ := h
      obtain ⟨he, hd⟩ := ih hr
      subst hb; subst ha
      exact ⟨by rw [he]; rfl, hd⟩

theorem lastDotSplit_append (x y : Name) (h : '.' ∉ y) :
    lastDotSplit (x ++ '.' :: y) = some (x, y) := by
  induction x with
  | nil => simp [lastDotSplit, (lastDotSplit_none_iff y).mpr h]
  | cons c x' ih => simp [lastDotSplit, ih]

theorem isLowerHexChar_ne_dot {c : Char} (h : isLowerHexChar c = true) : c ≠ '.' := by
  intro he; subst he; exact absurd h (by decide)

theorem isLowerHexChar_ne_nl {c : Char} (h : isLowerHexChar c = true) : c ≠ '\n' := by
  intro he; subst he; exact absurd h (by decide)

theorem isHex8_no_dot {h : Name} (hh : isHex8 h) : '.' ∉ h := by
  intro hm
  exact isLowerHexChar_ne_dot (List.all_eq_true.mp hh.2 _ hm) rfl

theorem stripTrailing8Hex_append {x h8 : Name} (hlen : h8.length = 8)
    (hhex : h8.all isLowerHexChar = true) :
    stripTrailing8Hex (x ++ '.' :: h8) = x := by
  have hrev : (x ++ '.' :: h8).reverse = h8.reverse ++ '.' :: x.reverse := by
    simp
  have hlenr : h8.reverse.length = 8 := by simp [hlen]
  have htake : (h8.reverse ++ '.' :: x.reverse).take 8 = h8.reverse := by
    rw [← hlenr, List.take_left]
  have hdrop8 : (h8.reverse ++ '.' :: x.reverse).drop 8 = '.' :: x.reverse := by
    rw [← hlenr, List.drop_left]
  have hdrop9 : (h8.reverse ++ '.' :: x.reverse).drop 9 = x.reverse := by
    have h1 : h8.reverse ++ '.' :: x.reverse = (h8.reverse ++ ['.']) ++ x.reverse := by
      simp
    have h2 : (h8.reverse ++ ['.']).length = 9 := by simp [hlenr]
    rw [h1, ← h2, List.drop_left]
  have hall : h8.reverse.all isLowerHexChar = true :=
    List.all_eq_true.mpr fun c hc =>
      List.all_eq_true.mp hhex c (List.mem_reverse.mp hc)
  simp only [stripTrailing8Hex, hrev, htake, hdrop8, hdrop9]
  rw [if_pos ⟨hlenr, hall, rfl⟩]
  exact List.reverse_reverse x

/-- C2 counterexample: with the hash width configured to 4, the valid hex
string "abcd" is inserted into the clean name "a.css" giving "a.abcd.css",
but `removeHashFromFilename` only strips 8-hex-character tokens, so the
round trip fails. -/
theorem C2_counterexample : ¬ claimC2Statement := by
  intro hcl
  have h := hcl 4 "a.css".toList "abcd".toList
    ⟨by decide, "a".toList, "css".toList, by decide, by decide⟩
    ⟨by decide, by decide⟩
  exact absurd h (by decide)

/-- C2 (amended): the strip/insert round trip `strip (insert f h) = f` holds
when the hex string `h` has width exactly 8 (the width hard-coded in the
stripping regex) and the clean filename `f` has a recognized extension and a
nonempty, newline-free basename that does not itself end in a dot followed
by eight hex characters. -/
theorem C2_roundTrip (f h : Name) (hf : roundTripSafe f) (hh : isHex8 h) :
    removeHashFromFilename (addHashToFilename f h) = f := by
  obtain ⟨b, e, hsplit, hext, hb, hnl, hfix⟩ := hf
  obtain ⟨hf_eq, hedot⟩ := lastDotSplit_sound hsplit
  have hext_go : extGo f = '.' :: e := by unfold extGo; rw [hsplit]
  have hbase : baseGo f = b := by unfold baseGo; rw [hsplit]
  have hdots_h : '.' ∉ h := isHex8_no_dot hh
  have hadd : addHashToFilename f h = b ++ '.' :: (h ++ '.' :: e) := by
    unfold addHashToFilename; rw [hbase, hfix, hext_go]
  rw [hadd]
  have h1 : lastDotSplit (b ++ '.' :: (h ++ '.' :: e)) =
      some (b ++ '.' :: h, e) := by
    have h0 := lastDotSplit_append (b ++ '.' :: h) e hedot
    simpa [List.append_assoc] using h0
  have h2 : lastDotSplit (b ++ '.' :: h) = some (b, h) :=
    lastDotSplit_append b h hdots_h
  simp only [removeHashFromFilename, h1, h2]
  rw [if_pos hext, if_pos ⟨hb, hnl, hh.1, hh.2⟩]
  exact hf_eq.symm

/-- C2 witness: the amended round trip at a concrete clean name and a
concrete 8-hex hash. -/
theorem C2_roundTrip_witness :
    removeHashFromFilename (addHashToFilename "a.css".toList "deadbeef".toList) =
      "a.css".toList :=
  C2_roundTrip "a.css".toList "deadbeef".toList
    ⟨"a".toList, "css".toList, by decide, by decide, by decide, by decide,
      by decide⟩
    ⟨by decide, by decide⟩

/-- C8 counterexample: for `url('img.png")` — opening quote `'`, closing
quote `"`, both present but different — the code normalizes neither side,
so the rewritten occurrence keeps two different quote characters. -/
theorem C8_counterexample : ¬ claimC8Statement := by
  intro hcl
  have h := hcl ['\''] ['"'] (by decide) (by decide) (by decide)
  exact absurd h (by decide)

/-- C8 (amended): when exactly one of the opening/closing quotes of a
matched `url()` occurrence is present, both sides of the rewritten
occurrence are normalized to that quote; when the two sides agree, the
original quote characters are preserved; and when both are present but
different, both are left unchanged (no normalization happens). -/
theorem C8_quoteNormalization (oq cq : Name) (ho : oq ∈ quoteOpts)
    (hc : cq ∈ quoteOpts) :
    (oq ≠ [] ∧ cq = [] → normalizeQuotePair oq cq = (oq, oq)) ∧
    (oq = [] ∧ cq ≠ [] → normalizeQuotePair oq cq = (cq, cq)) ∧
    (oq = cq → normalizeQuotePair oq cq = (oq, cq)) ∧
    (oq ≠ [] ∧ cq ≠ [] → normalizeQuotePair oq cq = (oq, cq)) := by
  fin_cases ho <;> fin_cases hc <;> exact by decide

/-- C8 witness: a `url(` occurrence with an opening quote and no closing
quote is normalized to carry the opening quote on both sides. -/
theorem C8_quoteNormalization_witness :
    normalizeQuotePair ['\''] [] = (['\''], ['\'']) :=
  (C8_quoteNormalization ['\''] [] (by decide) (by decide)).1
    ⟨by decide, rfl⟩

theorem lookupFS_setFile_self (fs : FS) (p : FsPath) (c : Content) :
    lookupFS (setFile fs p c) p = some c := by
  induction fs with
  | nil => simp [setFile, lookupFS]
  | cons e t ih =>
    by_cases h : e.path = p
    · simp [setFile, lookupFS, h]
    · simp [setFile, lookupFS, h, ih]

theorem lookupFS_setFile_ne (fs : FS) {p q : FsPath} (c : Content)
    (h : q ≠ p) : lookupFS (setFile fs p c) q = lookupFS fs q := by
  have hpq : ¬ p = q := fun he => h he.symm
  induction fs with
  | nil => simp [setFile, lookupFS, hpq]
  | cons e t ih =>
    by_cases he : e.path = p
    · have hq : ¬ e.path = q := by rw [he]; exact hpq
      simp [setFile, lookupFS, he, hq, hpq]
    · simp only [setFile, if_neg he]
      by_cases hq : e.path = q
      · simp [lookupFS, hq]
      · simp [lookupFS, hq, ih]

theorem lookupFS_removeFile_ne (fs : FS) {p q : FsPath} (h : q ≠ p) :
    lookupFS (removeFile fs p) q = lookupFS fs q := by
  induction fs with
  | nil => simp [removeFile, lookupFS]
  | cons e t ih =>
    have hpq : ¬ p = q := fun hh => h hh.symm
    by_cases he : e.path = p
    · have hq : ¬ e.path = q := by rw [he]; exact hpq
      simp [removeFile, he, lookupFS, hq, hpq, ih]
    · by_cases hq : e.path = q
      · simp [removeFile, he, lookupFS, hq, h]
      · simp [removeFile, he, lookupFS, hq, ih]

theorem removeFile_sublist (fs : FS) (p : FsPath) :
    (removeFile fs p).Sublist fs := by
  induction fs with
  | nil => simp [removeFile]
  | cons e t ih =>
    by_cases he : e.path = p
    · simp only [removeFile, if_pos he]
      exact ih.cons e
    · simp only [removeFile, if_neg he]
      exact ih.cons₂ e

theorem lookupFS_filter_keep (fs : FS) (f : FsEntry → Bool) (q : FsPath)
    (hf : ∀ c, f ⟨q, c⟩ = true) :
    lookupFS (fs.filter f) q = lookupFS fs q := by
  induction fs with
  | nil => simp [lookupFS]
  | cons e t ih =>
    obtain ⟨ep, ec⟩ := e
    by_cases hpq : ep = q
    · subst hpq
      simp [List.filter_cons, hf ec, lookupFS]
    · cases hfe : f ⟨ep, ec⟩ with
      | true => simp [List.filter_cons, hfe, lookupFS, hpq, ih]
      | false => simp [List.filter_cons, hfe, lookupFS, hpq, ih]

theorem mem_setFile (fs : FS) (p : FsPath) (c : Content) {e : FsEntry}
    (h : e ∈ setFile fs p c) : e = ⟨p, c⟩ ∨ e ∈ fs := by
  induction fs with
  | nil => simpa [setFile] using h
  | cons e0 t ih =>
    by_cases he : e0.path = p
    · simp only [setFile, if_pos he] at h
      rcases List.mem_cons.mp h with h1 | h1
      · exact Or.inl h1
      · exact Or.inr (List.mem_cons_of_mem _ h1)
    · simp only [setFile, if_neg he] at h
      rcases List.mem_cons.mp h with h1 | h1
      · exact Or.inr (h1 ▸ List.mem_cons_self _ _)
      · rcases ih h1 with h2 | h2
        · exact Or.inl h2
        · exact Or.inr (List.mem_cons_of_mem _ h2)

theorem wfFS_filter (fs : FS) (f : FsEntry → Bool) (h : wfFS fs) :
    wfFS (fs.filter f) :=
  List.Nodup.sublist (List.Sublist.map _ (List.filter_sublist fs)) h

theorem wfFS_removeFile (fs : FS) (p : FsPath) (h : wfFS fs) :
    wfFS (removeFile fs p) :=
  List.Nodup.sublist (List.Sublist.map _ (removeFile_sublist fs p)) h

theorem wfFS_setFile (fs : FS) (p : FsPath) (c : Content) (h : wfFS fs) :
    wfFS (setFile fs p c) := by
  induction fs with
  | nil => simp [setFile, wfFS]
  | cons e t ih =>
    have ht : wfFS t := (List.nodup_cons.mp h).2
    have hni : e.path ∉ t.map FsEntry.path := (List.nodup_cons.mp h).1
    by_cases he : e.path = p
    · simp only [setFile, if_pos he, wfFS, List.map_cons]
      exact List.nodup_cons.mpr ⟨by rw [← he]; exact hni, ht⟩
    · simp only [setFile, if_neg he, wfFS, List.map_cons]
      refine List.nodup_cons.mpr ⟨?_, ih ht⟩
      intro hmem
      rcases List.mem_map.mp hmem with ⟨e', he', hpe⟩
      rcases mem_setFile t p c he' with h1 | h1
      · exact he (by rw [← hpe, h1])
      · exact hni (hpe ▸ List.mem_map_of_mem FsEntry.path h1)

theorem length_le_one_of_same_path {l : List FsEntry}
    (hnd : (l.map FsEntry.path).Nodup) (a : FsPath)
    (h : ∀ e ∈ l, e.path = a) : l.length ≤ 1 := by
  match l with
  | [] => simp
  | [e] => simp
  | e1 :: e2 :: t =>
    exfalso
    have h1 : e1.path = a := h e1 (List.mem_cons_self _ _)
    have h2 : e2.path = a := h e2 (List.mem_cons_of_mem _ (List.mem_cons_self _ _))
    have := (List.nodup_cons.mp hnd).1
    exact this (by
      rw [h1, ← h2]
      exact List.mem_map_of_mem FsEntry.path (List.mem_cons_self _ _))

theorem baseGo_extGo (n : Name) : baseGo n ++ extGo n = n := by
  unfold baseGo extGo
  cases h : lastDotSplit n with
  | none => simp
  | some q =>
    obtain ⟨b, a⟩ := q
    have := (lastDotSplit_sound h).1
    simp [this]

theorem extractOldHash_sound {bn ext n h8 : Name}
    (h : extractOldHash bn ext n = some h8) :
    n = bn ++ '.' :: (h8 ++ ext) ∧ h8.length = 8 ∧
      h8.all isLowerHexChar = true := by
  unfold extractOldHash at h
  split at h
  case isTrue hc =>
    obtain ⟨c1, c2, c3, c4, c5⟩ := hc
    obtain rfl : h8 = (n.drop (bn.length + 1)).take 8 := (Option.some_inj.mp h).symm
    refine ⟨?_, c3, c4⟩
    have hsplit : n = n.take bn.length ++ n.drop bn.length :=
      (List.take_append_drop bn.length n).symm
    have hd1 : n.drop (bn.length + 1) = (n.drop bn.length).tail := by
      rw [List.tail_drop]
    have hcons : n.drop bn.length = '.' :: n.drop (bn.length + 1) := by
      cases hd : n.drop bn.length with
      | nil => rw [hd] at c2; exact absurd c2 (by simp)
      | cons a t =>
        rw [hd] at c2
        simp only [List.head?_cons, Option.some_inj] at c2
        rw [hd1, hd, c2]
        rfl
    have htail : n.drop (bn.length + 1) =
        (n.drop (bn.length + 1)).take 8 ++ n.drop (bn.length + 9) := by
      have hdd : (n.drop (bn.length + 1)).drop 8 = n.drop (bn.length + 9) := by
        rw [List.drop_drop]
      rw [← hdd]
      exact (List.take_append_drop 8 _).symm
    calc n = n.take bn.length ++ n.drop bn.length := hsplit
      _ = bn ++ '.' :: n.drop (bn.length + 1) := by rw [c1, hcons]
      _ = bn ++ '.' :: ((n.drop (bn.length + 1)).take 8 ++ ext) := by
          rw [← c5, ← htail]
  case isFalse => exact absurd h (by simp)

theorem extractOldHash_of_eq {bn ext h8 : Name} (hlen : h8.length = 8)
    (hhex : h8.all isLowerHexChar = true) :
    extractOldHash bn ext (bn ++ '.' :: (h8 ++ ext)) = some h8 := by
  have c1 : (bn ++ '.' :: (h8 ++ ext)).take bn.length = bn := List.take_left _ _
  have c2 : (bn ++ '.' :: (h8 ++ ext)).drop bn.length = '.' :: (h8 ++ ext) :=
    List.drop_left _ _
  have c3 : (bn ++ '.' :: (h8 ++ ext)).drop (bn.length + 1) = h8 ++ ext := by
    have h1 : bn ++ '.' :: (h8 ++ ext) = (bn ++ ['.']) ++ (h8 ++ ext) := by simp
    have h2 : (bn ++ ['.']).length = bn.length + 1 := by simp
    rw [h1, ← h2, List.drop_left]
  have c4 : (h8 ++ ext).take 8 = h8 := by rw [← hlen, List.take_left]
  have c5 : (bn ++ '.' :: (h8 ++ ext)).drop (bn.length + 9) = ext := by
    have h1 : bn ++ '.' :: (h8 ++ ext) = (bn ++ '.' :: h8) ++ ext := by simp
    have h2 : (bn ++ '.' :: h8).length = bn.length + 9 := by
      simp [hlen]
    rw [h1, ← h2, List.drop_left]
  unfold extractOldHash
  rw [if_pos ⟨c1, by rw [c2]; rfl, by rw [c3, c4, hlen],
    by rw [c3, c4]; exact hhex, c5⟩]
  rw [c3, c4]

/-- A name equal to its own base-plus-extension decomposition is never
matched by its own stale pattern (the pattern inserts nine extra
characters). -/
theorem extractOldHash_self (n : Name) :
    extractOldHash (baseGo n) (extGo n) n = none := by
  cases h : extractOldHash (baseGo n) (extGo n) n with
  | none => rfl
  | some h8 =>
    exfalso
    obtain ⟨heq, hlen, _⟩ := extractOldHash_sound h
    have hcancel : extGo n = '.' :: (h8 ++ extGo n) :=
      List.append_cancel_left
        (by rw [baseGo_extGo]; exact heq :
          baseGo n ++ extGo n = baseGo n ++ '.' :: (h8 ++ extGo n))
    have hlen2 := congrArg List.length hcancel
    simp [hlen] at hlen2
    omega

/-- The idempotent early-return path (main.go 227-237): when the
fingerprinted target already exists with the current hash, the publish
succeeds with no copy and no deletion and the filesystem untouched. -/
theorem rename_early (cfg : Config) (digest : Content → Name) (fs : FS)
    (p : FsPath) (hash : Name)
    (h1 : calculateFileHash cfg digest fs (sourcePathOf fs p) = some hash)
    (h2 : fileExists fs (renameTargetPath p hash) = true)
    (h3 : calculateFileHash cfg digest fs (renameTargetPath p hash) =
      some hash) :
    renameFileWithHash cfg digest fs p =
      (some ⟨sourcePathOf fs p, renameTargetPath p hash, hash, true⟩, fs,
        ⟨0, 0⟩) := by
  simp only [renameFileWithHash, h1]
  rw [if_pos ⟨h2, h3⟩]

/-- The copy path (main.go 239-254): when the target is absent or carries a
different hash, the publish copies the authoritative source to the target
and garbage-collects stale siblings. -/
theorem rename_copy (cfg : Config) (digest : Content → Name) (fs : FS)
    (p : FsPath) (hash : Name) (c : Content)
    (hsrc : lookupFS fs (sourcePathOf fs p) = some c)
    (hhash : truncHash cfg digest c = hash)
    (hcond : ¬ (fileExists fs (renameTargetPath p hash) = true ∧
        calculateFileHash cfg digest fs (renameTargetPath p hash) =
          some hash)) :
    renameFileWithHash cfg digest fs p =
      (some ⟨sourcePathOf fs p, renameTargetPath p hash, hash, true⟩,
       copyPhaseFS fs p hash c,
       ⟨1, copyPhaseDels fs p hash c⟩) := by
  have h1 : calculateFileHash cfg digest fs (sourcePathOf fs p) =
      some hash := by
    simp [calculateFileHash, hsrc, hhash]
  have hneq : sourcePathOf fs p ≠ renameTargetPath p hash := by
    intro he
    apply hcond
    refine ⟨?_, ?_⟩
    · rw [← he]; simp [fileExists, hsrc]
    · rw [← he]; exact h1
  have hlook1 : lookupFS
      (if fileExists fs (renameTargetPath p hash) then
        removeFile fs (renameTargetPath p hash)
      else fs) (sourcePathOf fs p) = some c := by
    split
    · rw [lookupFS_removeFile_ne _ hneq]; exact hsrc
    · exact hsrc
  have hcopy : copyFile
      (if fileExists fs (renameTargetPath p hash) then
        removeFile fs (renameTargetPath p hash)
      else fs)
      (sourcePathOf fs p) (renameTargetPath p hash) =
      some (setFile
        (if fileExists fs (renameTargetPath p hash) then
          removeFile fs (renameTargetPath p hash)
        else fs)
        (renameTargetPath p hash) c) := by
    simp [copyFile, hlook1, hneq]
  simp only [renameFileWithHash, h1]
  rw [if_neg hcond]
  simp only [hcopy]
  rfl

/-- The canonical fingerprinted name embeds exactly the hash it was built
with: if the stale pattern matches `bn ++ "." ++ H ++ ext`, the extracted
hash is `H` itself. -/
theorem extractOldHash_canonical {bn ext H h8 : Name}
    (h : extractOldHash bn ext (bn ++ '.' :: (H ++ ext)) = some h8) :
    h8 = H := by
  obtain ⟨heq, _, _⟩ := extractOldHash_sound h
  have h2 : H ++ ext = h8 ++ ext := by
    simpa using List.append_cancel_left heq
  have hl : h8.length = H.length := by
    have := congrArg List.length h2
    simp at this
    omega
  exact (List.append_inj h2.symm hl).1

theorem renameTargetName_eq_canonical (p : FsPath) (H : Name)
    (hfix : stripTrailing8Hex (cleanBaseOf p) = cleanBaseOf p) :
    renameTargetName p H = canonicalTargetName p H := by
  unfold cleanBaseOf at hfix
  unfold renameTargetName addHashToFilename canonicalTargetName
  rw [hfix]
  rfl

theorem canonicalTargetName_ne_cleanName (p : FsPath) (H : Name) :
    canonicalTargetName p H ≠ removeHashFromFilename p.name := by
  intro he
  have hdecomp : removeHashFromFilename p.name =
      cleanBaseOf p ++ cleanExtOf p := (baseGo_extGo _).symm
  rw [hdecomp] at he
  have := congrArg List.length he
  simp [canonicalTargetName] at this
  omega

theorem tgt_ne_cleanPath (p : FsPath) (H : Name)
    (hfix : stripTrailing8Hex (cleanBaseOf p) = cleanBaseOf p) :
    renameTargetPath p H ≠ cleanPathOf p := by
  intro he
  have hn : renameTargetName p H = removeHashFromFilename p.name :=
    congrArg FsPath.name he
  rw [renameTargetName_eq_canonical p H hfix] at hn
  exact canonicalTargetName_ne_cleanName p H hn

theorem isStale_cleanPath_false (p : FsPath) (H : Name) (c' : Content) :
    isStaleEntry p.dir (cleanBaseOf p) (cleanExtOf p) H
      ⟨cleanPathOf p, c'⟩ = false := by
  have h0 : extractOldHash (cleanBaseOf p) (cleanExtOf p)
      (removeHashFromFilename p.name) = none :=
    extractOldHash_self (removeHashFromFilename p.name)
  simp [isStaleEntry, cleanPathOf, h0]

theorem isStale_canonical_false (p : FsPath) (H : Name) (path : FsPath)
    (c' : Content) (hname : path.name = canonicalTargetName p H) :
    isStaleEntry p.dir (cleanBaseOf p) (cleanExtOf p) H ⟨path, c'⟩ =
      false := by
  cases hext : extractOldHash (cleanBaseOf p) (cleanExtOf p) path.name with
  | none => simp [isStaleEntry, hext]
  | some h8 =>
    have hh : h8 = H := extractOldHash_canonical (hname ▸ hext)
    subst hh
    simp [isStaleEntry, hext]

theorem lookup_copyPhaseFS_tgt (fs : FS) (p : FsPath) (H : Name)
    (c : Content)
    (hfix : stripTrailing8Hex (cleanBaseOf p) = cleanBaseOf p) :
    lookupFS (copyPhaseFS fs p H c) (renameTargetPath p H) = some c := by
  have hkeep : ∀ c',
      (fun e => ! isStaleEntry p.dir (cleanBaseOf p) (cleanExtOf p) H e)
        ⟨renameTargetPath p H, c'⟩ = true := by
    intro c'
    simp [isStale_canonical_false p H (renameTargetPath p H) c'
      (renameTargetName_eq_canonical p H hfix)]
  unfold copyPhaseFS findAndDeleteOldHashFiles
  rw [lookupFS_filter_keep _ _ _ hkeep, lookupFS_setFile_self]

theorem lookup_copyPhaseFS_clean (fs : FS) (p : FsPath) (H : Name)
    (c : Content)
    (hfix : stripTrailing8Hex (cleanBaseOf p) = cleanBaseOf p) :
    lookupFS (copyPhaseFS fs p H c) (cleanPathOf p) =
      lookupFS fs (cleanPathOf p) := by
  have hne : cleanPathOf p ≠ renameTargetPath p H :=
    fun he => (tgt_ne_cleanPath p H hfix) he.symm
  have hkeep : ∀ c',
      (fun e => ! isStaleEntry p.dir (cleanBaseOf p) (cleanExtOf p) H e)
        ⟨cleanPathOf p, c'⟩ = true := by
    intro c'
    simp [isStale_cleanPath_false p H c']
  unfold copyPhaseFS findAndDeleteOldHashFiles
  rw [lookupFS_filter_keep _ _ _ hkeep, lookupFS_setFile_ne _ _ hne]
  split
  · exact lookupFS_removeFile_ne _ hne
  · rfl

theorem wfFS_copyPhaseFS (fs : FS) (p : FsPath) (H : Name) (c : Content)
    (h : wfFS fs) : wfFS (copyPhaseFS fs p H c) := by
  unfold copyPhaseFS findAndDeleteOldHashFiles
  apply wfFS_filter
  apply wfFS_setFile
  split
  · exact wfFS_removeFile _ _ h
  · exact h

/-- `cexMd5Digest` really has the md5 shape: 32 lowercase-hex characters
for every input. -/
theorem cexMd5Digest_md5Shaped : md5Shaped cexMd5Digest := by
  intro c
  unfold cexMd5Digest
  constructor
  · rw [List.length_take, List.length_append, List.length_map,
      List.length_replicate]
    omega
  · apply List.all_eq_true.mpr
    intro x hx
    have hx2 := List.take_subset 32 _ hx
    rcases List.mem_append.mp hx2 with h | h
    · rcases List.mem_map.mp h with ⟨c0, -, hc0⟩
      subst hc0
      unfold hexOrZero
      by_cases hh : isLowerHexChar c0 = true
      · rw [if_pos hh]; exact hh
      · rw [if_neg hh]; decide
    · rw [List.eq_of_mem_replicate h]
      decide

/-- C1 counterexample: publishing `a.css` takes the idempotent early-return
path (the target `a.11111111.css` already exists with the current hash) and
returns successfully without deleting the stale sibling `a.aaaaaaaa.css`,
whose embedded hash differs from the current hash — the directory keeps two
files matching `a.<8hex>.css`. -/
theorem C1_counterexample : ¬ claimC1Statement := by
  intro hcl
  have h := hcl cexCfg cexMd5Digest cexFS1 ⟨"d", "a.css".toList⟩
    ⟨⟨"d", "a.css".toList⟩, ⟨"d", "a.11111111.css".toList⟩,
      "11111111".toList, true⟩
    cexFS1 ⟨0, 0⟩ (by decide)
  exact absurd h (by decide)

/-- C1 (amended): when the publish actually performs the copy
(`s.copies = 1`, i.e. it did not take the idempotent early-return path),
the asset's directory afterwards contains at most one file matching
`<base>.<8hex><ext>`, and that file's embedded hash is the published hash.
On the early-return path stale siblings are not cleaned up. -/
theorem C1_staleCleanupBound (cfg : Config) (digest : Content → Name)
    (fs : FS) (p : FsPath) (info : FileInfo) (fs' : FS) (s : Stats)
    (hwf : wfFS fs)
    (hrun : renameFileWithHash cfg digest fs p = (some info, fs', s))
    (hcopy : s.copies = 1) :
    (fs'.filter (matchesHashPattern p)).all
      (fun e => decide (e.path.name = canonicalTargetName p info.hash)) =
      true ∧
    (fs'.filter (matchesHashPattern p)).length ≤ 1 := by
  cases hcalc : calculateFileHash cfg digest fs (sourcePathOf fs p) with
  | none =>
    simp only [renameFileWithHash, hcalc] at hrun
    exact absurd hrun (by simp)
  | some hash =>
    obtain ⟨c, hsrc, hhash⟩ : ∃ c, lookupFS fs (sourcePathOf fs p) = some c ∧
        truncHash cfg digest c = hash := by
      unfold calculateFileHash at hcalc
      cases hl : lookupFS fs (sourcePathOf fs p) with
      | none => rw [hl] at hcalc; simp at hcalc
      | some c0 =>
        rw [hl] at hcalc
        simp at hcalc
        exact ⟨c0, rfl, hcalc⟩
    by_cases hcnd : fileExists fs (renameTargetPath p hash) = true ∧
        calculateFileHash cfg digest fs (renameTargetPath p hash) = some hash
    · rw [rename_early cfg digest fs p hash hcalc hcnd.1 hcnd.2] at hrun
      simp only [Prod.mk.injEq] at hrun
      obtain ⟨-, -, hs⟩ := hrun
      rw [← hs] at hcopy
      exact absurd hcopy (by simp)
    · rw [rename_copy cfg digest fs p hash c hsrc hhash hcnd] at hrun
      simp only [Prod.mk.injEq] at hrun
      obtain ⟨hi, hf, -⟩ := hrun
      have hinfo : info =
          ⟨sourcePathOf fs p, renameTargetPath p hash, hash, true⟩ :=
        (Option.some_inj.mp hi).symm
      subst hf
      have hhash_info : info.hash = hash := by rw [hinfo]
      have hmain : ∀ e ∈ (copyPhaseFS fs p hash c).filter
          (matchesHashPattern p),
          e.path = ⟨p.dir, canonicalTargetName p hash⟩ := by
        intro e he
        obtain ⟨hef, hem⟩ := List.mem_filter.mp he
        simp only [matchesHashPattern, Bool.and_eq_true] at hem
        obtain ⟨hdirb, hsomeb⟩ := hem
        have hdir : e.path.dir = p.dir := of_decide_eq_true hdirb
        obtain ⟨h8, hext⟩ := Option.isSome_iff_exists.mp hsomeb
        have hef2 : e ∈ (setFile
            (if fileExists fs (renameTargetPath p hash) then
              removeFile fs (renameTargetPath p hash)
            else fs)
            (renameTargetPath p hash) c).filter
            (fun e => ! isStaleEntry p.dir (cleanBaseOf p) (cleanExtOf p)
              hash e) := hef
        have hkeepb := (List.mem_filter.mp hef2).2
        have hstale : isStaleEntry p.dir (cleanBaseOf p) (cleanExtOf p)
            hash e = false := by simpa using hkeepb
        have h8eq : h8 = hash := by
          by_contra hne
          have htrue : isStaleEntry p.dir (cleanBaseOf p) (cleanExtOf p)
              hash e = true := by
            simp [isStaleEntry, hdir, hext, hne]
          rw [htrue] at hstale
          exact Bool.noConfusion hstale
        obtain ⟨hname, -, -⟩ := extractOldHash_sound hext
        have hn2 : e.path.name = canonicalTargetName p hash := by
          rw [hname, h8eq]
          rfl
        have hep : e.path = ⟨e.path.dir, e.path.name⟩ := rfl
        rw [hep, hdir, hn2]
      refine ⟨?_, ?_⟩
      · apply List.all_eq_true.mpr
        intro e he
        rw [decide_eq_true_eq, hhash_info]
        exact congrArg FsPath.name (hmain e he)
      · exact length_le_one_of_same_path
          (wfFS_filter _ _ (wfFS_copyPhaseFS fs p hash c hwf))
          ⟨p.dir, canonicalTargetName p hash⟩ hmain

/-- C1 witness: the amended stale-cleanup bound evaluated on a concrete
copying publish of `b.css`, whose copy deletes the stale `b.aaaaaaaa.css`
and leaves exactly one matching fingerprint `b.33333333.css`. -/
theorem C1_staleCleanupBound_witness :
    (((renameFileWithHash cexCfg cexDigest cexFS2
        ⟨"d", "b.css".toList⟩).2.1.filter
        (matchesHashPattern ⟨"d", "b.css".toList⟩)).all
      (fun e => decide (e.path.name =
        canonicalTargetName ⟨"d", "b.css".toList⟩ "33333333".toList)) =
      true) ∧
    ((renameFileWithHash cexCfg cexDigest cexFS2
        ⟨"d", "b.css".toList⟩).2.1.filter
      (matchesHashPattern ⟨"d", "b.css".toList⟩)).length ≤ 1 :=
  C1_staleCleanupBound cexCfg cexDigest cexFS2 ⟨"d", "b.css".toList⟩
    ⟨⟨"d", "b.css".toList⟩, ⟨"d", "b.33333333.css".toList⟩,
      "33333333".toList, true⟩
    (renameFileWithHash cexCfg cexDigest cexFS2 ⟨"d", "b.css".toList⟩).2.1
    ⟨1, 1⟩ (by decide) (by decide) rfl

/-- C5: (i) when the fingerprinted target already exists with the asset's
current hash, the publish returns success touching nothing — zero copies,
zero deletions, filesystem unchanged; (ii) consequently the second of two
consecutive publishes of an unchanged asset (with its clean source present)
performs zero copies and zero deletions and leaves the filesystem exactly
as the first publish left it. -/
theorem C5_idempotentPublish :
    (∀ (cfg : Config) (digest : Content → Name) (fs : FS) (p : FsPath)
        (hash : Name),
      calculateFileHash cfg digest fs (sourcePathOf fs p) = some hash →
      fileExists fs (renameTargetPath p hash) = true →
      calculateFileHash cfg digest fs (renameTargetPath p hash) =
        some hash →
      renameFileWithHash cfg digest fs p =
        (some ⟨sourcePathOf fs p, renameTargetPath p hash, hash, true⟩, fs,
          ⟨0, 0⟩)) ∧
    (∀ (cfg : Config) (digest : Content → Name) (fs : FS) (p : FsPath)
        (c : Content),
      lookupFS fs (cleanPathOf p) = some c →
      stripTrailing8Hex (cleanBaseOf p) = cleanBaseOf p →
      (renameFileWithHash cfg digest
          (renameFileWithHash cfg digest fs p).2.1 p).2.1 =
        (renameFileWithHash cfg digest fs p).2.1 ∧
      (renameFileWithHash cfg digest
          (renameFileWithHash cfg digest fs p).2.1 p).2.2 = ⟨0, 0⟩) := by
  refine ⟨fun cfg digest fs p hash h1 h2 h3 =>
    rename_early cfg digest fs p hash h1 h2 h3, ?_⟩
  intro cfg digest fs p c hclean hfix
  have hex : fileExists fs (cleanPathOf p) = true := by
    simp [fileExists, hclean]
  have hsp : sourcePathOf fs p = cleanPathOf p := by
    simp [sourcePathOf, hex]
  have hcalc : calculateFileHash cfg digest fs (sourcePathOf fs p) =
      some (truncHash cfg digest c) := by
    simp [calculateFileHash, hsp, hclean]
  by_cases hcnd : fileExists fs
        (renameTargetPath p (truncHash cfg digest c)) = true ∧
      calculateFileHash cfg digest fs
        (renameTargetPath p (truncHash cfg digest c)) =
        some (truncHash cfg digest c)
  · have h1 := rename_early cfg digest fs p (truncHash cfg digest c) hcalc
      hcnd.1 hcnd.2
    simp [h1]
  · have h1 := rename_copy cfg digest fs p (truncHash cfg digest c) c
      (by rw [hsp]; exact hclean) rfl hcnd
    have hA : lookupFS (copyPhaseFS fs p (truncHash cfg digest c) c)
        (cleanPathOf p) = some c := by
      rw [lookup_copyPhaseFS_clean fs p (truncHash cfg digest c) c hfix]
      exact hclean
    have hex2 : fileExists (copyPhaseFS fs p (truncHash cfg digest c) c)
        (cleanPathOf p) = true := by simp [fileExists, hA]
    have hsp2 : sourcePathOf (copyPhaseFS fs p (truncHash cfg digest c) c)
        p = cleanPathOf p := by simp [sourcePathOf, hex2]
    have hcalc2 : calculateFileHash cfg digest
        (copyPhaseFS fs p (truncHash cfg digest c) c)
        (sourcePathOf (copyPhaseFS fs p (truncHash cfg digest c) c) p) =
        some (truncHash cfg digest c) := by
      simp [calculateFileHash, hsp2, hA]
    have hB : lookupFS (copyPhaseFS fs p (truncHash cfg digest c) c)
        (renameTargetPath p (truncHash cfg digest c)) = some c :=
      lookup_copyPhaseFS_tgt fs p (truncHash cfg digest c) c hfix
    have hexB : fileExists (copyPhaseFS fs p (truncHash cfg digest c) c)
        (renameTargetPath p (truncHash cfg digest c)) = true := by
      simp [fileExists, hB]
    have hcalcB : calculateFileHash cfg digest
        (copyPhaseFS fs p (truncHash cfg digest c) c)
        (renameTargetPath p (truncHash cfg digest c)) =
        some (truncHash cfg digest c) := by
      simp [calculateFileHash, hB]
    have h2 := rename_early cfg digest
      (copyPhaseFS fs p (truncHash cfg digest c) c) p
      (truncHash cfg digest c) hcalc2 hexB hcalcB
    simp [h1, h2]

/-- C5 witness: on a directory where the target fingerprint is already
up to date, the early-return part of the idempotence theorem evaluates to
the expected no-op result. -/
theorem C5_idempotentPublish_witness :
    renameFileWithHash cexCfg cexDigest cexFS1 ⟨"d", "a.css".toList⟩ =
      (some ⟨sourcePathOf cexFS1 ⟨"d", "a.css".toList⟩,
        renameTargetPath ⟨"d", "a.css".toList⟩ "11111111".toList,
        "11111111".toList, true⟩, cexFS1, ⟨0, 0⟩) :=
  C5_idempotentPublish.1 cexCfg cexDigest cexFS1 ⟨"d", "a.css".toList⟩
    "11111111".toList (by decide) (by decide) (by decide)

/-- C6: a successful publish resolves its authoritative source to the
clean-named sibling exactly when that sibling exists on disk (and to the
given path otherwise), computes the hash from that source's bytes, and —
when it performs the copy — the fingerprinted target afterwards holds
exactly the authoritative source's bytes.  A stale fingerprinted file is
never hashed as authoritative while the clean file is present. -/
theorem C6_authoritativeSource (cfg : Config) (digest : Content → Name)
    (fs : FS) (p : FsPath) (info : FileInfo) (fs' : FS) (s : Stats)
    (hrun : renameFileWithHash cfg digest fs p = (some info, fs', s)) :
    info.originalPath = sourcePathOf fs p ∧
    (fileExists fs (cleanPathOf p) = true →
      info.originalPath = cleanPathOf p) ∧
    (fileExists fs (cleanPathOf p) = false → info.originalPath = p) ∧
    (∃ c, lookupFS fs (sourcePathOf fs p) = some c ∧
      info.hash = truncHash cfg digest c ∧
      (s.copies = 1 →
        stripTrailing8Hex (cleanBaseOf p) = cleanBaseOf p →
        lookupFS fs' info.hashedPath = some c)) := by
  cases hcalc : calculateFileHash cfg digest fs (sourcePathOf fs p) with
  | none =>
    simp only [renameFileWithHash, hcalc] at hrun
    exact absurd hrun (by simp)
  | some hash =>
    obtain ⟨c, hsrc, hhash⟩ : ∃ c, lookupFS fs (sourcePathOf fs p) = some c ∧
        truncHash cfg digest c = hash := by
      unfold calculateFileHash at hcalc
      cases hl : lookupFS fs (sourcePathOf fs p) with
      | none => rw [hl] at hcalc; simp at hcalc
      | some c0 =>
        rw [hl] at hcalc
        simp at hcalc
        exact ⟨c0, rfl, hcalc⟩
    by_cases hcnd : fileExists fs (renameTargetPath p hash) = true ∧
        calculateFileHash cfg digest fs (renameTargetPath p hash) = some hash
    · rw [rename_early cfg digest fs p hash hcalc hcnd.1 hcnd.2] at hrun
      simp only [Prod.mk.injEq] at hrun
      obtain ⟨hi, -, hs⟩ := hrun
      have hinfo : info =
          ⟨sourcePathOf fs p, renameTargetPath p hash, hash, true⟩ :=
        (Option.some_inj.mp hi).symm
      refine ⟨by rw [hinfo],
        fun hx => by rw [hinfo]; simp [sourcePathOf, hx],
        fun hx => by rw [hinfo]; simp [sourcePathOf, hx],
        c, hsrc, by rw [hinfo]; exact hhash.symm, fun h1 _ => ?_⟩
      rw [← hs] at h1
      exact absurd h1 (by simp)
    · rw [rename_copy cfg digest fs p hash c hsrc hhash hcnd] at hrun
      simp only [Prod.mk.injEq] at hrun
      obtain ⟨hi, hf, -⟩ := hrun
      have hinfo : info =
          ⟨sourcePathOf fs p, renameTargetPath p hash, hash, true⟩ :=
        (Option.some_inj.mp hi).symm
      refine ⟨by rw [hinfo],
        fun hx => by rw [hinfo]; simp [sourcePathOf, hx],
        fun hx => by rw [hinfo]; simp [sourcePathOf, hx],
        c, hsrc, by rw [hinfo]; exact hhash.symm, fun _ hfix => ?_⟩
      rw [← hf, hinfo]
      exact lookup_copyPhaseFS_tgt fs p hash c hfix

/-- C6 witness: publishing `b.css` (clean source present) resolves the
authoritative source to the clean file itself. -/
theorem C6_authoritativeSource_witness :
    (⟨⟨"d", "b.css".toList⟩, ⟨"d", "b.33333333.css".toList⟩,
        "33333333".toList, true⟩ : FileInfo).originalPath =
      sourcePathOf cexFS2 ⟨"d", "b.css".toList⟩ :=
  (C6_authoritativeSource cexCfg cexDigest cexFS2 ⟨"d", "b.css".toList⟩
    ⟨⟨"d", "b.css".toList⟩, ⟨"d", "b.33333333.css".toList⟩,
      "33333333".toList, true⟩
    (renameFileWithHash cexCfg cexDigest cexFS2 ⟨"d", "b.css".toList⟩).2.1
    ⟨1, 1⟩ (by decide)).1

theorem recognizedExts_length : ∀ e ∈ recognizedExts, e.length ≤ 4 := by
  decide

theorem extGo_shape (n : Name) :
    extGo n = [] ∨ ∃ ie, extGo n = '.' :: ie ∧ '.' ∉ ie := by
  unfold extGo
  cases h : lastDotSplit n with
  | none => exact Or.inl rfl
  | some q =>
    obtain ⟨b, a⟩ := q
    exact Or.inr ⟨a, rfl, (lastDotSplit_sound h).2⟩

theorem truncHash_md5 (cfg : Config) (digest : Content → Name) (c : Content)
    (hmd5 : md5Shaped digest) (hw : cfg.hashLength = 8) :
    (truncHash cfg digest c).length = 8 ∧
      (truncHash cfg digest c).all isLowerHexChar = true := by
  obtain ⟨hl, hx⟩ := hmd5 c
  unfold truncHash
  rw [hw, hl]
  rw [if_pos ⟨by norm_num, by norm_num⟩]
  refine ⟨?_, ?_⟩
  · rw [List.length_take, hl]
    decide
  · apply List.all_eq_true.mpr
    intro x hx2
    exact List.all_eq_true.mp hx x (List.take_subset _ _ hx2)

theorem not_fingerLike {n0 b0 e0 : Name}
    (hsplit : lastDotSplit n0 = some (b0, e0)) (he : e0 ∈ recognizedExts)
    (hb : stripTrailing8Hex b0 = b0) :
    ∀ (A h E : Name), h.length = 8 → h.all isLowerHexChar = true →
      (E = [] ∨ ∃ ie, E = '.' :: ie ∧ '.' ∉ ie) →
      n0 ≠ A ++ '.' :: (h ++ E) := by
  intro A h E hlen hhex hE heq
  have hdotfree : '.' ∉ h := fun hm =>
    isLowerHexChar_ne_dot (List.all_eq_true.mp hhex _ hm) rfl
  rcases hE with hE | ⟨ie, hE, hie⟩
  · subst hE
    rw [heq, List.append_nil] at hsplit
    rw [lastDotSplit_append A h hdotfree] at hsplit
    simp at hsplit
    have h4 : e0.length ≤ 4 := recognizedExts_length e0 he
    have h8 : e0.length = 8 := by rw [← hsplit.2]; exact hlen
    omega
  · subst hE
    have heq2 : n0 = (A ++ '.' :: h) ++ '.' :: ie := by rw [heq]; simp
    rw [heq2, lastDotSplit_append _ ie hie] at hsplit
    simp at hsplit
    have hstrip : stripTrailing8Hex (A ++ '.' :: h) = A :=
      stripTrailing8Hex_append hlen hhex
    rw [hsplit.1] at hstrip
    rw [hb] at hstrip
    have hlb := congrArg List.length hsplit.1
    rw [hstrip] at hlb
    simp [hlen] at hlb

theorem ne_of_name_ne {P Q : FsPath} (h : P.name ≠ Q.name) : P ≠ Q :=
  fun he => h (congrArg FsPath.name he)

theorem untouchable_ne_target (q : FsPath) (hash : Name) (P : FsPath)
    (hsh : hash.length = 8 ∧ hash.all isLowerHexChar = true)
    (hP : untouchableName P) : P ≠ renameTargetPath q hash :=
  ne_of_name_ne
    (hP (stripTrailing8Hex (baseGo (removeHashFromFilename q.name))) hash
      (extGo (removeHashFromFilename q.name)) hsh.1 hsh.2 (extGo_shape _))

theorem untouchable_keep (q : FsPath) (H : Name) (P : FsPath)
    (hP : untouchableName P) : ∀ c',
    (fun e => ! isStaleEntry q.dir (cleanBaseOf q) (cleanExtOf q) H e)
      ⟨P, c'⟩ = true := by
  intro c'
  cases hext : extractOldHash (cleanBaseOf q) (cleanExtOf q) P.name with
  | none => simp [isStaleEntry, hext]
  | some h8 =>
    exfalso
    obtain ⟨hname, hl8, hx8⟩ := extractOldHash_sound hext
    exact hP (cleanBaseOf q) h8 (cleanExtOf q) hl8 hx8
      (extGo_shape (removeHashFromFilename q.name)) hname

/-- A truly clean path — recognized extension, fingerprint-free basename —
is untouchable by publishing. -/
theorem cleanPath_untouchable (p : FsPath)
    (hrec : ∃ b e, lastDotSplit (removeHashFromFilename p.name) =
      some (b, e) ∧ e ∈ recognizedExts)
    (hfix : stripTrailing8Hex (cleanBaseOf p) = cleanBaseOf p) :
    untouchableName (cleanPathOf p) := by
  obtain ⟨b, e, hsplit, he⟩ := hrec
  have hbe : b = cleanBaseOf p := by
    simp [cleanBaseOf, baseGo, hsplit]
  have hb : stripTrailing8Hex b = b := by rw [hbe]; exact hfix
  exact not_fingerLike hsplit he hb

theorem calculateFileHash_some {cfg : Config} {digest : Content → Name}
    {fs : FS} {p : FsPath} {hash : Name}
    (h : calculateFileHash cfg digest fs p = some hash) :
    ∃ c, lookupFS fs p = some c ∧ truncHash cfg digest c = hash := by
  unfold calculateFileHash at h
  cases hl : lookupFS fs p with
  | none => rw [hl] at h; simp at h
  | some c0 =>
    rw [hl] at h
    simp at h
    exact ⟨c0, rfl, h⟩

/-- `renameFileWithHash` never changes an untouchable path. -/
theorem rename_frame_other (cfg : Config) (digest : Content → Name)
    (fs : FS) (q P : FsPath)
    (hmd5 : md5Shaped digest) (hw : cfg.hashLength = 8)
    (hP : untouchableName P) :
    lookupFS (renameFileWithHash cfg digest fs q).2.1 P = lookupFS fs P := by
  cases hcalc : calculateFileHash cfg digest fs (sourcePathOf fs q) with
  | none => simp only [renameFileWithHash, hcalc]
  | some hash =>
    obtain ⟨c, hsrc, hhash⟩ := calculateFileHash_some hcalc
    have hashShape : hash.length = 8 ∧ hash.all isLowerHexChar = true := by
      rw [← hhash]
      exact truncHash_md5 cfg digest c hmd5 hw
    have hPtgt : P ≠ renameTargetPath q hash :=
      untouchable_ne_target q hash P hashShape hP
    by_cases hcnd : fileExists fs (renameTargetPath q hash) = true ∧
        calculateFileHash cfg digest fs (renameTargetPath q hash) = some hash
    · rw [rename_early cfg digest fs q hash hcalc hcnd.1 hcnd.2]
    · rw [rename_copy cfg digest fs q hash c hsrc hhash hcnd]
      unfold copyPhaseFS findAndDeleteOldHashFiles
      rw [lookupFS_filter_keep _ _ _ (untouchable_keep q hash P hP),
        lookupFS_setFile_ne _ _ hPtgt]
      split
      · exact lookupFS_removeFile_ne _ hPtgt
      · rfl

theorem renameSt_frame_other (cfg : Config) (digest : Content → Name)
    (st : PipelineState) (q P : FsPath)
    (hmd5 : md5Shaped digest) (hw : cfg.hashLength = 8)
    (hP : untouchableName P) :
    lookupFS ((renameFileWithHashSt cfg digest st q).2).fs P =
      lookupFS st.fs P := by
  have hfr := rename_frame_other cfg digest st.fs q P hmd5 hw hP
  cases hr : renameFileWithHash cfg digest st.fs q with
  | mk oi r2 =>
    cases r2 with
    | mk fs' s =>
      rw [hr] at hfr
      simpa [renameFileWithHashSt, hr] using hfr

theorem processCssImage_frame (cfg : Config) (digest : Content → Name)
    (acc : PipelineState × List (Name × Name)) (img : ImageRef) (P : FsPath)
    (hmd5 : md5Shaped digest) (hw : cfg.hashLength = 8)
    (hP : untouchableName P) :
    lookupFS ((processCssImage cfg digest acc img).1).fs P =
      lookupFS acc.1.fs P := by
  unfold processCssImage
  split
  · cases hcalc : calculateFileHash cfg digest acc.1.fs img.absolutePath with
    | none => rfl
    | some h => rfl
  · cases hr : renameFileWithHashSt cfg digest
        { acc.1 with
          processedFiles := img.absolutePath :: acc.1.processedFiles }
        img.absolutePath with
    | mk oi st2 =>
      have hfr := renameSt_frame_other cfg digest
        { acc.1 with
          processedFiles := img.absolutePath :: acc.1.processedFiles }
        img.absolutePath P hmd5 hw hP
      rw [hr] at hfr
      cases oi with
      | none => simpa using hfr
      | some info => simpa using hfr

theorem imageLoop_frame (cfg : Config) (digest : Content → Name)
    (P : FsPath) (hmd5 : md5Shaped digest) (hw : cfg.hashLength = 8)
    (hP : untouchableName P) :
    ∀ (images : List ImageRef) (st : PipelineState)
      (imap : List (Name × Name)),
      lookupFS ((images.foldl (processCssImage cfg digest)
        (st, imap)).1).fs P = lookupFS st.fs P := by
  intro images
  induction images with
  | nil => intro st imap; rfl
  | cons img t ih =>
    intro st imap
    rw [List.foldl_cons]
    have hstep := processCssImage_frame cfg digest (st, imap) img P hmd5 hw hP
    have ih2 := ih (processCssImage cfg digest (st, imap) img).1
      (processCssImage cfg digest (st, imap) img).2
    exact ih2.trans hstep

theorem copyFile_some {fs : FS} {src dst : FsPath} {fs' : FS}
    (h : copyFile fs src dst = some fs') :
    ∃ c, lookupFS fs src = some c ∧
      fs' = setFile fs dst (if src = dst then [] else c) := by
  unfold copyFile at h
  cases hl : lookupFS fs src with
  | none => rw [hl] at h; simp at h
  | some c =>
    rw [hl] at h
    simp at h
    exact ⟨c, rfl, h.symm⟩

/-- The rewrite-and-rehash phase never changes an untouchable path. -/
theorem cssRewritePhase_frame (cfg : Config) (digest : Content → Name)
    (rewriteCss : List (Name × Name) → Content → Content)
    (imageMap : List (Name × Name)) (fs : FS) (cssDir : String)
    (cleanFilename : Name) (hashedCssPath : FsPath) (originalHash : Name)
    (P : FsPath)
    (hmd5 : md5Shaped digest) (hw : cfg.hashLength = 8)
    (hPne : P ≠ hashedCssPath) (hP : untouchableName P) :
    lookupFS (cssRewritePhase cfg digest rewriteCss imageMap fs cssDir
      cleanFilename hashedCssPath originalHash).1 P = lookupFS fs P := by
  unfold cssRewritePhase
  split
  · rfl
  · cases hcc : lookupFS fs hashedCssPath with
    | none => rfl
    | some cc =>
      dsimp only
      cases hnh : calculateFileHash cfg digest
          (setFile fs hashedCssPath (rewriteCss imageMap cc))
          hashedCssPath with
      | none =>
        dsimp only
        exact lookupFS_setFile_ne _ _ hPne
      | some newHash =>
        dsimp only
        obtain ⟨c2, -, hsh2⟩ := calculateFileHash_some hnh
        have hshape : newHash.length = 8 ∧
            newHash.all isLowerHexChar = true := by
          rw [← hsh2]
          exact truncHash_md5 cfg digest _ hmd5 hw
        have hPfin : P ≠
            (⟨cssDir, addHashToFilename cleanFilename newHash⟩ : FsPath) :=
          ne_of_name_ne
            (hP (stripTrailing8Hex (baseGo cleanFilename)) newHash
              (extGo cleanFilename) hshape.1 hshape.2 (extGo_shape _))
        split
        · exact lookupFS_setFile_ne _ _ hPne
        · split
          · exact lookupFS_setFile_ne _ _ hPne
          · cases hl2 : lookupFS
                (setFile fs hashedCssPath (rewriteCss imageMap cc))
                hashedCssPath with
            | none =>
              dsimp only
              exact lookupFS_setFile_ne _ _ hPne
            | some c3 =>
              dsimp only
              rw [lookupFS_setFile_ne _ _ hPfin,
                lookupFS_removeFile_ne _ hPne]
              exact lookupFS_setFile_ne _ _ hPne

/-- C4: publishing neither deletes nor mutates the clean source.  Part one:
`renameFileWithHash` leaves the clean-named sibling (content and
existence) untouched whenever that name is genuinely clean (its basename
carries no trailing fingerprint token).  Part two: the whole stylesheet
pipeline — image publishing, the fingerprinted copy, the `url()` rewrite
of that copy, the rename after re-hashing, and stale cleanup — leaves the
clean CSS source untouched; in particular image-reference rewriting is
applied only to the fingerprinted copy. -/
theorem C4_cleanSourcePreserved :
    (∀ (cfg : Config) (digest : Content → Name) (fs : FS) (p : FsPath),
      stripTrailing8Hex (cleanBaseOf p) = cleanBaseOf p →
      lookupFS (renameFileWithHash cfg digest fs p).2.1 (cleanPathOf p) =
        lookupFS fs (cleanPathOf p)) ∧
    (∀ (cfg : Config) (digest : Content → Name)
        (extract : Content → List Name)
        (rewriteCss : List (Name × Name) → Content → Content)
        (st : PipelineState) (cssPath : FsPath),
      md5Shaped digest → cfg.hashLength = 8 →
      (∃ b e, lastDotSplit (removeHashFromFilename cssPath.name) =
        some (b, e) ∧ e ∈ recognizedExts) →
      stripTrailing8Hex (cleanBaseOf cssPath) = cleanBaseOf cssPath →
      lookupFS ((processComponentCSS cfg digest extract rewriteCss st
        cssPath).2).fs (cleanPathOf cssPath) =
        lookupFS st.fs (cleanPathOf cssPath)) := by
  constructor
  · intro cfg digest fs p hfix
    cases hcalc : calculateFileHash cfg digest fs (sourcePathOf fs p) with
    | none => simp only [renameFileWithHash, hcalc]
    | some hash =>
      obtain ⟨c, hsrc, hhash⟩ := calculateFileHash_some hcalc
      by_cases hcnd : fileExists fs (renameTargetPath p hash) = true ∧
          calculateFileHash cfg digest fs (renameTargetPath p hash) =
            some hash
      · rw [rename_early cfg digest fs p hash hcalc hcnd.1 hcnd.2]
      · rw [rename_copy cfg digest fs p hash c hsrc hhash hcnd]
        exact lookup_copyPhaseFS_clean fs p hash c hfix
  · intro cfg digest extract rewriteCss st cssPath hmd5 hw hrec hfix
    have hP : untouchableName (cleanPathOf cssPath) :=
      cleanPath_untouchable cssPath hrec hfix
    unfold processComponentCSS
    cases hcoll : collectImagesFromCSS extract st.fs
        (if fileExists st.fs (cleanPathOf cssPath) then cleanPathOf cssPath
         else cssPath) with
    | none => rfl
    | some images =>
      dsimp only
      cases hloop : images.foldl (processCssImage cfg digest) (st, []) with
      | mk st1 imageMap =>
        dsimp only
        have hst1 : lookupFS st1.fs (cleanPathOf cssPath) =
            lookupFS st.fs (cleanPathOf cssPath) := by
          have h0 := imageLoop_frame cfg digest (cleanPathOf cssPath) hmd5
            hw hP images st []
          rw [hloop] at h0
          simpa using h0
        cases hch : calculateFileHash cfg digest st1.fs
            (if fileExists st.fs (cleanPathOf cssPath) then
              cleanPathOf cssPath
            else cssPath) with
        | none => dsimp only; exact hst1
        | some originalHash =>
          dsimp only
          obtain ⟨c0, -, hoh⟩ := calculateFileHash_some hch
          have hohShape : originalHash.length = 8 ∧
              originalHash.all isLowerHexChar = true := by
            rw [← hoh]
            exact truncHash_md5 cfg digest c0 hmd5 hw
          have hPne : cleanPathOf cssPath ≠
              (⟨cssPath.dir,
                addHashToFilename (removeHashFromFilename cssPath.name)
                  originalHash⟩ : FsPath) :=
            ne_of_name_ne
              (hP (stripTrailing8Hex
                  (baseGo (removeHashFromFilename cssPath.name)))
                originalHash (extGo (removeHashFromFilename cssPath.name))
                hohShape.1 hohShape.2 (extGo_shape _))
          cases hcp : copyFile st1.fs
              (if fileExists st.fs (cleanPathOf cssPath) then
                cleanPathOf cssPath
              else cssPath)
              ⟨cssPath.dir,
                addHashToFilename (removeHashFromFilename cssPath.name)
                  originalHash⟩ with
          | none => dsimp only; exact hst1
          | some fs2 =>
            dsimp only
            obtain ⟨csrc, -, hfs2⟩ := copyFile_some hcp
            have hfs2l : lookupFS fs2 (cleanPathOf cssPath) =
                lookupFS st1.fs (cleanPathOf cssPath) := by
              rw [hfs2]
              exact lookupFS_setFile_ne _ _ hPne
            cases hrw : cssRewritePhase cfg digest rewriteCss imageMap fs2
                cssPath.dir (removeHashFromFilename cssPath.name)
                ⟨cssPath.dir,
                  addHashToFilename (removeHashFromFilename cssPath.name)
                    originalHash⟩
                originalHash with
            | mk fs3 rest =>
              cases rest with
              | mk finalPath finalHash =>
                dsimp only
                have hfs3 : lookupFS fs3 (cleanPathOf cssPath) =
                    lookupFS fs2 (cleanPathOf cssPath) := by
                  have h0 := cssRewritePhase_frame cfg digest rewriteCss
                    imageMap fs2 cssPath.dir
                    (removeHashFromFilename cssPath.name)
                    ⟨cssPath.dir,
                      addHashToFilename
                        (removeHashFromFilename cssPath.name) originalHash⟩
                    originalHash (cleanPathOf cssPath) hmd5 hw hPne hP
                  rw [hrw] at h0
                  simpa using h0
                cases hfd : findAndDeleteOldHashFiles fs3 cssPath.dir
                    (cleanBaseOf cssPath) (cleanExtOf cssPath) finalHash with
                | mk fs4 dels =>
                  dsimp only
                  have h1 : (findAndDeleteOldHashFiles fs3 cssPath.dir
                      (cleanBaseOf cssPath) (cleanExtOf cssPath)
                      finalHash).1 = fs4 := by rw [hfd]
                  have hkeepR := lookupFS_filter_keep fs3
                    (fun e => ! isStaleEntry cssPath.dir (cleanBaseOf cssPath)
                      (cleanExtOf cssPath) finalHash e)
                    (cleanPathOf cssPath)
                    (untouchable_keep cssPath finalHash (cleanPathOf cssPath)
                      hP)
                  show lookupFS fs4 (cleanPathOf cssPath) =
                    lookupFS st.fs (cleanPathOf cssPath)
                  rw [← h1]
                  exact hkeepR.trans (hfs3.trans (hfs2l.trans hst1))

/-- C4 witness: a plain publish of `b.css` leaves the clean source `b.css`
exactly as it was, and a stylesheet publish of `s.css` (under the
md5-shaped digest) leaves the clean source `s.css` exactly as it was. -/
theorem C4_cleanSourcePreserved_witness :
    (lookupFS (renameFileWithHash cexCfg cexDigest cexFS2
        ⟨"d", "b.css".toList⟩).2.1 (cleanPathOf ⟨"d", "b.css".toList⟩) =
      lookupFS cexFS2 (cleanPathOf ⟨"d", "b.css".toList⟩)) ∧
    (lookupFS ((processComponentCSS cexCfg cexMd5Digest (fun _ => [])
        (fun _ c => c) cexStCss ⟨"d", "s.css".toList⟩).2).fs
        (cleanPathOf ⟨"d", "s.css".toList⟩) =
      lookupFS cexStCss.fs (cleanPathOf ⟨"d", "s.css".toList⟩)) :=
  ⟨C4_cleanSourcePreserved.1 cexCfg cexDigest cexFS2 ⟨"d", "b.css".toList⟩
      (by decide),
   C4_cleanSourcePreserved.2 cexCfg cexMd5Digest (fun _ => [])
      (fun _ c => c) cexStCss ⟨"d", "s.css".toList⟩ cexMd5Digest_md5Shaped
      (by decide) ⟨"s".toList, "css".toList, by decide, by decide⟩
      (by decide)⟩

theorem lookupVM_upsertVM_self (m : List (FsPath × Name)) (k : FsPath)
    (v : Name) : lookupVM (upsertVM m k v) k = some v := by
  induction m with
  | nil => simp [upsertVM, lookupVM]
  | cons kv t ih =>
    by_cases h : kv.1 = k
    · simp [upsertVM, lookupVM, h]
    · simp [upsertVM, lookupVM, h, ih]

theorem mem_keys_upsertVM {m : List (FsPath × Name)} {k k' : FsPath}
    {v : Name} (h : k' ∈ (upsertVM m k v).map Prod.fst) :
    k' = k ∨ k' ∈ m.map Prod.fst := by
  induction m with
  | nil => simpa [upsertVM] using h
  | cons kv t ih =>
    by_cases hk : kv.1 = k
    · simp only [upsertVM, if_pos hk, List.map_cons, List.mem_cons] at h
      rcases h with h | h
      · exact Or.inl h
      · exact Or.inr (List.mem_cons_of_mem _ h)
    · simp only [upsertVM, if_neg hk, List.map_cons, List.mem_cons] at h
      rcases h with h | h
      · exact Or.inr (by rw [h]; exact List.mem_cons_self _ _)
      · rcases ih h with h2 | h2
        · exact Or.inl h2
        · exact Or.inr (List.mem_cons_of_mem _ h2)

theorem vmKeysNodup_upsertVM {m : List (FsPath × Name)} (k : FsPath)
    (v : Name) (h : vmKeysNodup m) : vmKeysNodup (upsertVM m k v) := by
  induction m with
  | nil => simp [upsertVM, vmKeysNodup]
  | cons kv t ih =>
    have ht : vmKeysNodup t := (List.nodup_cons.mp h).2
    have hni : kv.1 ∉ t.map Prod.fst := (List.nodup_cons.mp h).1
    by_cases hk : kv.1 = k
    · simp only [upsertVM, if_pos hk, vmKeysNodup, List.map_cons]
      exact List.nodup_cons.mpr ⟨by rw [← hk]; exact hni, ht⟩
    · simp only [upsertVM, if_neg hk, vmKeysNodup, List.map_cons]
      refine List.nodup_cons.mpr ⟨?_, ih ht⟩
      intro hmem
      rcases mem_keys_upsertVM hmem with h1 | h1
      · exact hk h1
      · exact hni h1

theorem vmCount_eq_one {m : List (FsPath × Name)} {k : FsPath} {v : Name}
    (hnd : vmKeysNodup m) (h : lookupVM m k = some v) : vmCount m k = 1 := by
  induction m with
  | nil => simp [lookupVM] at h
  | cons kv t ih =>
    have ht := (List.nodup_cons.mp hnd).2
    have hni := (List.nodup_cons.mp hnd).1
    by_cases hk : kv.1 = k
    · have hzero : (t.filter (fun kv2 => decide (kv2.1 = k))).length = 0 := by
        rw [List.length_eq_zero, List.filter_eq_nil_iff]
        intro kv2 hkv2
        simp only [decide_eq_true_eq]
        intro he
        apply hni
        rw [hk, ← he]
        exact List.mem_map_of_mem Prod.fst hkv2
      simp [vmCount, List.filter_cons, hk, hzero]
    · have h2 : lookupVM t k = some v := by simpa [lookupVM, hk] using h
      have h3 := ih ht h2
      simpa [vmCount, List.filter_cons, hk] using h3

theorem renameSt_versionMap (cfg : Config) (digest : Content → Name)
    (st : PipelineState) (p : FsPath) :
    ((renameFileWithHashSt cfg digest st p).2).versionMap =
      st.versionMap := by
  unfold renameFileWithHashSt
  cases renameFileWithHash cfg digest st.fs p with
  | mk oi r2 => cases r2 with | mk fs' s => rfl

theorem processCssImage_vmNodup (cfg : Config) (digest : Content → Name)
    (acc : PipelineState × List (Name × Name)) (img : ImageRef)
    (h : vmKeysNodup acc.1.versionMap) :
    vmKeysNodup ((processCssImage cfg digest acc img).1).versionMap := by
  unfold processCssImage
  split
  · cases hcalc : calculateFileHash cfg digest acc.1.fs img.absolutePath with
    | none => exact h
    | some hh => exact h
  · cases hr : renameFileWithHashSt cfg digest
        { acc.1 with
          processedFiles := img.absolutePath :: acc.1.processedFiles }
        img.absolutePath with
    | mk oi st2 =>
      have hvm : st2.versionMap = acc.1.versionMap := by
        have h0 := renameSt_versionMap cfg digest
          { acc.1 with
            processedFiles := img.absolutePath :: acc.1.processedFiles }
          img.absolutePath
        rw [hr] at h0
        exact h0
      cases oi with
      | none =>
        dsimp only
        rw [hvm]
        exact h
      | some info =>
        dsimp only
        rw [hvm]
        exact vmKeysNodup_upsertVM _ _ h

theorem imageLoop_vmNodup (cfg : Config) (digest : Content → Name) :
    ∀ (images : List ImageRef) (st : PipelineState)
      (imap : List (Name × Name)), vmKeysNodup st.versionMap →
      vmKeysNodup ((images.foldl (processCssImage cfg digest)
        (st, imap)).1).versionMap := by
  intro images
  induction images with
  | nil => intro st imap h; exact h
  | cons img t ih =>
    intro st imap h
    rw [List.foldl_cons]
    have hstep := processCssImage_vmNodup cfg digest (st, imap) img h
    exact ih (processCssImage cfg digest (st, imap) img).1
      (processCssImage cfg digest (st, imap) img).2 hstep

/-- C3 counterexample: `renameFileWithHash` never writes the version
ledger, so a successfully published JS asset has no ledger entry; a whole
`processHTMLFile` run that publishes the page's main script succeeds,
creates the fingerprinted copy, and still ends with an empty ledger. -/
theorem C3_counterexample :
    (¬ claimC3Statement) ∧
    (processHTMLFile cexCfg cexMd5Digest (fun _ => []) (fun _ c => c)
        (fun _ => ([], [])) (fun c => c) cexSt0
        ⟨"r", "index.html".toList⟩).2 = true ∧
    fileExists ((processHTMLFile cexCfg cexMd5Digest (fun _ => [])
        (fun _ c => c) (fun _ => ([], [])) (fun c => c) cexSt0
        ⟨"r", "index.html".toList⟩).1).fs
      ⟨"r", "index.44444444.js".toList⟩ = true ∧
    ((processHTMLFile cexCfg cexMd5Digest (fun _ => []) (fun _ c => c)
        (fun _ => ([], [])) (fun c => c) cexSt0
        ⟨"r", "index.html".toList⟩).1).versionMap = [] := by
  refine ⟨?_, by decide, by decide, by decide⟩
  intro hcl
  have h := hcl cexCfg cexMd5Digest cexSt0 ⟨"r", "index.js".toList⟩
    ⟨⟨"r", "index.js".toList⟩, ⟨"r", "index.44444444.js".toList⟩,
      "44444444".toList, true⟩
    (renameFileWithHashSt cexCfg cexMd5Digest cexSt0
      ⟨"r", "index.js".toList⟩).2
    (by decide)
  exact absurd h (by decide)

/-- C3 (amended): the ledger records exactly the stylesheet pipeline's
assets.  A plain publish (`renameFileWithHash`, used for main and
component JS) never touches the ledger; a successful stylesheet publish
records the stylesheet under its source path with its final hash —
exactly one entry. (Images referenced from the stylesheet are recorded
the same way inside the image loop.) -/
theorem C3_ledgerEntries :
    (∀ (cfg : Config) (digest : Content → Name) (st : PipelineState)
        (p : FsPath),
      ((renameFileWithHashSt cfg digest st p).2).versionMap =
        st.versionMap) ∧
    (∀ (cfg : Config) (digest : Content → Name)
        (extract : Content → List Name)
        (rewriteCss : List (Name × Name) → Content → Content)
        (st : PipelineState) (cssPath : FsPath) (info : FileInfo)
        (st' : PipelineState),
      processComponentCSS cfg digest extract rewriteCss st cssPath =
        (some info, st') →
      vmKeysNodup st.versionMap →
      lookupVM st'.versionMap info.originalPath = some info.hash ∧
      vmKeysNodup st'.versionMap ∧
      vmCount st'.versionMap info.originalPath = 1) := by
  refine ⟨renameSt_versionMap, ?_⟩
  intro cfg digest extract rewriteCss st cssPath info st' hrun hnd
  unfold processComponentCSS at hrun
  cases hcoll : collectImagesFromCSS extract st.fs
      (if fileExists st.fs (cleanPathOf cssPath) then cleanPathOf cssPath
       else cssPath) with
  | none =>
    rw [hcoll] at hrun
    exact absurd hrun (by simp)
  | some images =>
    rw [hcoll] at hrun
    dsimp only at hrun
    cases hloop : images.foldl (processCssImage cfg digest) (st, []) with
    | mk st1 imageMap =>
      rw [hloop] at hrun
      dsimp only at hrun
      have hnd1 : vmKeysNodup st1.versionMap := by
        have h0 := imageLoop_vmNodup cfg digest images st [] hnd
        rw [hloop] at h0
        exact h0
      cases hch : calculateFileHash cfg digest st1.fs
          (if fileExists st.fs (cleanPathOf cssPath) then
            cleanPathOf cssPath
          else cssPath) with
      | none =>
        rw [hch] at hrun
        exact absurd hrun (by simp)
      | some originalHash =>
        rw [hch] at hrun
        dsimp only at hrun
        cases hcp : copyFile st1.fs
            (if fileExists st.fs (cleanPathOf cssPath) then
              cleanPathOf cssPath
            else cssPath)
            ⟨cssPath.dir,
              addHashToFilename (removeHashFromFilename cssPath.name)
                originalHash⟩ with
        | none =>
          rw [hcp] at hrun
          exact absurd hrun (by simp)
        | some fs2 =>
          rw [hcp] at hrun
          dsimp only at hrun
          cases hrw : cssRewritePhase cfg digest rewriteCss imageMap fs2
              cssPath.dir (removeHashFromFilename cssPath.name)
              ⟨cssPath.dir,
                addHashToFilename (removeHashFromFilename cssPath.name)
                  originalHash⟩
              originalHash with
          | mk fs3 rest =>
            cases rest with
            | mk finalPath finalHash =>
              rw [hrw] at hrun
              dsimp only at hrun
              cases hfd : findAndDeleteOldHashFiles fs3 cssPath.dir
                  (cleanBaseOf cssPath) (cleanExtOf cssPath) finalHash with
              | mk fs4 dels =>
                rw [hfd] at hrun
                dsimp only at hrun
                simp only [Prod.mk.injEq] at hrun
                obtain ⟨hi, hst'⟩ := hrun
                have hinfo : info =
                    ⟨(if fileExists st.fs (cleanPathOf cssPath) then
                        cleanPathOf cssPath
                      else cssPath), finalPath, finalHash, true⟩ :=
                  (Option.some_inj.mp hi).symm
                subst hst'
                rw [hinfo]
                refine ⟨lookupVM_upsertVM_self _ _ _,
          vmKeysNodup_upsertVM _ _ hnd1, ?_⟩
                exact vmCount_eq_one (vmKeysNodup_upsertVM _ _ hnd1)
                  (lookupVM_upsertVM_self _ _ _)

/-- C3 witness: publishing `s.css` records it in the ledger under its
source path with its hash. -/
theorem C3_ledgerEntries_witness :
    lookupVM ((processComponentCSS cexCfg cexDigest (fun _ => [])
        (fun _ c => c) cexStCss ⟨"d", "s.css".toList⟩).2).versionMap
      ⟨"d", "s.css".toList⟩ = some "55555555".toList ∧
    vmKeysNodup ((processComponentCSS cexCfg cexDigest (fun _ => [])
        (fun _ c => c) cexStCss ⟨"d", "s.css".toList⟩).2).versionMap ∧
    vmCount ((processComponentCSS cexCfg cexDigest (fun _ => [])
        (fun _ c => c) cexStCss ⟨"d", "s.css".toList⟩).2).versionMap
      ⟨"d", "s.css".toList⟩ = 1 :=
  C3_ledgerEntries.2 cexCfg cexDigest (fun _ => []) (fun _ c => c)
    cexStCss ⟨"d", "s.css".toList⟩
    ⟨⟨"d", "s.css".toList⟩, ⟨"d", "s.55555555.css".toList⟩,
      "55555555".toList, true⟩
    (processComponentCSS cexCfg cexDigest (fun _ => []) (fun _ c => c)
      cexStCss ⟨"d", "s.css".toList⟩).2
    (by decide) (by decide)

theorem takeWhile_fuse (p q : Char → Bool) (l : Name) :
    (l.takeWhile p).takeWhile q = l.takeWhile (fun c => p c && q c) := by
  induction l with
  | nil => rfl
  | cons c t ih =>
    by_cases hp : p c
    · by_cases hq : q c
      · simp [List.takeWhile_cons, hp, hq, ih]
      · simp [List.takeWhile_cons, hp, hq]
    · simp [List.takeWhile_cons, hp]

/-- C10: every extracted `url()` path is truncated at its first `?` (query
string) and first `#` (fragment) — together, at the first occurrence of
either — before being resolved against the stylesheet's directory, and the
stripped path is what the collected reference records as its original
path; in particular `url(bg.png?v=1#frag)` resolves to `bg.png`, which the
pipeline then publishes as a fingerprinted copy with a ledger entry. -/
theorem C10_queryFragmentStripping :
    (∀ p : Name, stripQueryAndFragment p =
      p.takeWhile (fun c => !(c == '?') && !(c == '#'))) ∧
    stripQueryAndFragment "bg.png?v=1#frag".toList = "bg.png".toList ∧
    collectImagesFromCSS (fun _ => ["bg.png?v=1#frag".toList]) cexFS4
      ⟨"d", "s.css".toList⟩ =
      some [⟨"bg.png".toList, ⟨"d", "bg.png".toList⟩⟩] ∧
    fileExists ((processComponentCSS cexCfg cexDigest
        (fun _ => ["bg.png?v=1#frag".toList]) (fun _ c => c) cexStC10
        ⟨"d", "s.css".toList⟩).2).fs ⟨"d", "bg.aaaa1111.png".toList⟩ =
      true ∧
    lookupVM ((processComponentCSS cexCfg cexDigest
        (fun _ => ["bg.png?v=1#frag".toList]) (fun _ c => c) cexStC10
        ⟨"d", "s.css".toList⟩).2).versionMap ⟨"d", "bg.png".toList⟩ =
      some "aaaa1111".toList :=
  ⟨fun p => takeWhile_fuse _ _ p, by decide, by decide, by decide,
    by decide⟩

/-- C7: when a CDN origin is configured, every rewritten non-absolute
attribute value becomes `<origin>/<path>` with one leading `./` stripped
from the path first; constructed values already starting with `http` are
not prefixed; and with origin `https://cdn.x.com` and resolved relative
path `img/a.jpg` the rewritten value is `https://cdn.x.com/img/a.jpg`. -/
theorem C7_cdnPrefixing :
    (∀ cdn oldPath newFilename : Name, cdn ≠ [] →
      startsWithSeq "http".toList (mkNewPath oldPath newFilename) = false →
      rewriteAttrValue cdn oldPath newFilename =
        cdn ++ '/' ::
          (if startsWithSeq "./".toList (mkNewPath oldPath newFilename) then
            (mkNewPath oldPath newFilename).drop 2
          else mkNewPath oldPath newFilename)) ∧
    (∀ cdn oldPath newFilename : Name,
      startsWithSeq "http".toList (mkNewPath oldPath newFilename) = true →
      rewriteAttrValue cdn oldPath newFilename =
        mkNewPath oldPath newFilename) ∧
    rewriteAttrValue "https://cdn.x.com".toList "img/a.jpg".toList
      "a.jpg".toList = "https://cdn.x.com/img/a.jpg".toList := by
  refine ⟨?_, ?_, by decide⟩
  · intro cdn oldPath newFilename hcdn habs
    unfold rewriteAttrValue applyCdnDomain
    rw [if_pos ⟨hcdn, habs⟩]
  · intro cdn oldPath newFilename habs
    unfold rewriteAttrValue applyCdnDomain
    rw [if_neg]
    intro hcontra
    rw [habs] at hcontra
    exact Bool.noConfusion hcontra.2

/-- C7 witness: a matched `./style.css` reference rewritten under a CDN
origin. -/
theorem C7_cdnPrefixing_witness :
    rewriteAttrValue "https://cdn.x.com".toList "./style.css".toList
      "style.ab12cd34.css".toList =
      "https://cdn.x.com/style.ab12cd34.css".toList := by
  have h := C7_cdnPrefixing.1 "https://cdn.x.com".toList
    "./style.css".toList "style.ab12cd34.css".toList (by decide) (by decide)
  rw [h]
  decide

/-- C9 counterexample: in configured-list mode a missing HTML file is only
logged; the run completes with exit code 0. -/
theorem C9_counterexample : ¬ claimC9Statement := by
  intro hcl
  have h := hcl cexCfg cexDigest (fun _ => []) (fun _ c => c)
    (fun _ => ([], [])) (fun c => c) ⟨[], [], [], 0, 0⟩
    [⟨"r", "missing.html".toList⟩] ⟨"r", "missing.html".toList⟩
    (by decide) (by decide)
  exact h (by decide)

/-- C9 (amended): only the explicit-single-file mode is fatal — there a
missing HTML file exits with code 1; the scan-all and configured-list
modes (and the no-input usage case) always exit 0, logging per-document
errors. -/
theorem C9_exitCodes :
    (∀ (cfg : Config) (digest : Content → Name)
        (extract : Content → List Name)
        (rewriteCss : List (Name × Name) → Content → Content)
        (extractHtml : Content → List Name × List Name)
        (rewriteHtml : Content → Content)
        (st : PipelineState) (p : FsPath) (scanAll : Bool)
        (files : List FsPath),
      fileExists st.fs p = false →
      (mainExitCode cfg digest extract rewriteCss extractHtml rewriteHtml
        st (some p) scanAll files).1 = 1) ∧
    (∀ (cfg : Config) (digest : Content → Name)
        (extract : Content → List Name)
        (rewriteCss : List (Name × Name) → Content → Content)
        (extractHtml : Content → List Name × List Name)
        (rewriteHtml : Content → Content)
        (st : PipelineState) (scanAll : Bool) (files : List FsPath),
      (mainExitCode cfg digest extract rewriteCss extractHtml rewriteHtml
        st none scanAll files).1 = 0) := by
  constructor
  · intro cfg digest extract rewriteCss extractHtml rewriteHtml st p
      scanAll files hmiss
    have hpf : processHTMLFile cfg digest extract rewriteCss extractHtml
        rewriteHtml st p = (st, false) := by
      unfold processHTMLFile
      rw [if_pos hmiss]
    simp only [mainExitCode, hpf]
  · intro cfg digest extract rewriteCss extractHtml rewriteHtml st
      scanAll files
    unfold mainExitCode
    dsimp only
    split
    · rfl
    · split
      · rfl
      · rfl

/-- C9 witness: single-file mode on a missing page exits 1. -/
theorem C9_exitCodes_witness :
    (mainExitCode cexCfg cexDigest (fun _ => []) (fun _ c => c)
      (fun _ => ([], [])) (fun c => c) ⟨[], [], [], 0, 0⟩
      (some ⟨"r", "missing.html".toList⟩) false []).1 = 1 :=
  C9_exitCodes.1 cexCfg cexDigest (fun _ => []) (fun _ c => c)
    (fun _ => ([], [])) (fun c => c) ⟨[], [], [], 0, 0⟩
    ⟨"r", "missing.html".toList⟩ false [] (by decide)

end HashCdn
